import Mathlib

/-!
Verification of the planar mesh-splitting core of the asteroids game
(`src/split_mesh.rs`, `src/mesh_utils.rs`).

The code computes with `f32`; this development embeds it over `ℚ`, so every
floating-point operation is read as exact rational arithmetic.  The two
`normalize()` calls on plane normals are dropped: normalisation only rescales
every signed distance by the same positive factor, and all downstream
quantities (side classification, interpolation parameters, intersection
points) are invariant under positive rescaling of the normal, so the embedded
functions produce the same geometry as the idealised source.
-/

/-- 2D points and vectors with rational coordinates (bevy `Vec2`). -/
abbrev Q2 := ℚ × ℚ

def q2add (a b : Q2) : Q2 := (a.1 + b.1, a.2 + b.2)

def q2sub (a b : Q2) : Q2 := (a.1 - b.1, a.2 - b.2)

def dotQ (a b : Q2) : ℚ := a.1 * b.1 + a.2 * b.2

/-- `Vec2::new(-d.y, d.x)`: the perpendicular used to turn a split direction
into a plane normal (`split_mesh`) and vice versa. -/
def perpQ (d : Q2) : Q2 := (-d.2, d.1)

/-- `distance_to_plane` from `mesh_utils.rs`: `plane.normal.dot(point - plane_point)`. -/
def distToPlane (p n pp : Q2) : ℚ := dotQ n (q2sub p pp)

/-- Vertex lookup in a buffer; out-of-range reads (which panic in the source)
are totalised to the origin. -/
def posOf (vs : List Q2) (i : ℕ) : Q2 := vs.getD i (0, 0)

/-- A triangle: three indices into a vertex buffer (`[usize; 3]`). -/
abbrev Tri := ℕ × ℕ × ℕ

/-- The cross-product z-component computed by `is_ccw_winded`. -/
def crossZ (v1 v2 v3 : Q2) : ℚ :=
  (v2.1 - v1.1) * (v3.2 - v1.2) - (v2.2 - v1.2) * (v3.1 - v1.1)

/-- `is_ccw_winded` from `mesh_utils.rs`: `cross_product_z >= 0.0`. -/
def isCCW (vs : List Q2) (t : Tri) : Bool :=
  decide (0 ≤ crossZ (posOf vs t.1) (posOf vs t.2.1) (posOf vs t.2.2))

/-- `ensure_ccw` from `mesh_utils.rs`: swap the 2nd and 3rd index if not CCW. -/
def ensureCCW (vs : List Q2) (t : Tri) : Tri :=
  if isCCW vs t then t else (t.1, t.2.2, t.2.1)

/-- The expression inside `abs()` in `calculate_area`:
`x0*(y1-y2) + x1*(y2-y0) + x2*(y0-y1)` (twice the signed area). -/
def innerArea (v0 v1 v2 : Q2) : ℚ :=
  v0.1 * (v1.2 - v2.2) + v1.1 * (v2.2 - v0.2) + v2.1 * (v0.2 - v1.2)

/-- Absolute triangle area, `0.5 * (...).abs()` as in `calculate_area`. -/
def triAreaPts (v0 v1 v2 : Q2) : ℚ := |innerArea v0 v1 v2| / 2

def triAreaIdx (vs : List Q2) (t : Tri) : ℚ :=
  triAreaPts (posOf vs t.1) (posOf vs t.2.1) (posOf vs t.2.2)

def areaSum (vs : List Q2) (ts : List Tri) : ℚ := (ts.map (triAreaIdx vs)).sum

/-- `itertools` `chunks(3)` over a flat index list; a final chunk of fewer
than 3 indices is produced as-is (the source panics on it downstream). -/
def chunk3 : List ℕ → List (List ℕ)
  | a :: b :: c :: r => [a, b, c] :: chunk3 r
  | [] => []
  | r => [r]

/-- Area of one `chunks(3)` chunk in `calculate_area`; the source panics on a
short chunk (`collect_tuple().unwrap()`), modelled as 0 (no output mesh ever
has one). -/
def chunkArea (vs : List Q2) : List ℕ → ℚ
  | [a, b, c] => triAreaPts (posOf vs a) (posOf vs b) (posOf vs c)
  | _ => 0

/-- A bevy `Mesh` restricted to what the code reads and writes: 2D vertex
positions (the z component is always 0) and a flat triangle index list. -/
structure MeshQ where
  verts : List Q2
  idxs : List ℕ
deriving DecidableEq

/-- `calculate_mesh_area` / `calculate_area`: sum of absolute triangle areas. -/
def meshArea (m : MeshQ) : ℚ := ((chunk3 m.idxs).map (chunkArea m.verts)).sum

/-- `plane.normal.dot(direction)` for `direction = v1 - v0`. -/
def denomQ (n v0 v1 : Q2) : ℚ := n.1 * (v1.1 - v0.1) + n.2 * (v1.2 - v0.2)

/-- The interpolation parameter `t` of `get_intersection_points_2d`. -/
def tParam (n pp v0 v1 : Q2) : ℚ := -(distToPlane v0 n pp) / denomQ n v0 v1

/-- One intersection point of `get_intersection_points_2d`:
`v0 + t * (v1 - v0)`. -/
def intersectPt (n pp v0 v1 : Q2) : Q2 :=
  (v0.1 + tParam n pp v0 v1 * (v1.1 - v0.1), v0.2 + tParam n pp v0 v1 * (v1.2 - v0.2))

/-- The scratch buffers of one `split_mesh` call: per-side triangle lists and
per-side vertex buffers (both initialised to a copy of the input vertices). -/
structure SplitState where
  aIdx : List Tri
  bIdx : List Tri
  aVtx : List Q2
  bVtx : List Q2
deriving DecidableEq

/-- `split_triangle` from `split_mesh.rs`: clip one straddling triangle,
appending the two intersection points to both side buffers, one new triangle
(CCW-corrected) on the minority side and two on the majority side. -/
def splitTriangleQ (n pp : Q2) (vs : List Q2) (minI m0 m1 : ℕ)
    (minTris : List Tri) (minVtx : List Q2) (majTris : List Tri) (majVtx : List Q2) :
    (List Tri × List Q2) × (List Tri × List Q2) :=
  let i1 := intersectPt n pp (posOf vs minI) (posOf vs m0)
  let i2 := intersectPt n pp (posOf vs minI) (posOf vs m1)
  let minVtx' := minVtx ++ [i1, i2]
  let ta := ensureCCW minVtx' (minI, minVtx.length, minVtx.length + 1)
  let majVtx' := majVtx ++ [i1, i2]
  let tb1 := ensureCCW majVtx' (m0, majVtx.length + 1, majVtx.length)
  let tb2 := ensureCCW majVtx' (m1, majVtx.length + 1, m0)
  ((minTris ++ [ta], minVtx'), (majTris ++ [tb1, tb2], majVtx'))

/-- `vertex_classifications` in `split_mesh`: one `Bool` per vertex,
`true` iff `distance_to_plane(v, plane, plane_point) > 0.0` (side A). -/
def classifyB (vs : List Q2) (n pp : Q2) : List Bool :=
  vs.map (fun v => decide (0 < distToPlane v n pp))

/-- The `match (side_a.len(), side_b.len())` arms of `split_mesh`, applied to
one chunk's two filtered index lists.  The wildcard arm models the
`panic!("Invalid split configuration")` as `none`. -/
def routeTri (n pp : Q2) (vs : List Q2) (st : SplitState) :
    List ℕ → List ℕ → Option SplitState
  | [x, y, z], [] => some { st with aIdx := st.aIdx ++ [(x, y, z)] }
  | [], [x, y, z] => some { st with bIdx := st.bIdx ++ [(x, y, z)] }
  | [a0], [b0, b1] =>
    let r := splitTriangleQ n pp vs a0 b0 b1 st.aIdx st.aVtx st.bIdx st.bVtx
    some ⟨r.1.1, r.2.1, r.1.2, r.2.2⟩
  | [a0, a1], [b0] =>
    let r := splitTriangleQ n pp vs b0 a0 a1 st.bIdx st.bVtx st.aIdx st.aVtx
    some ⟨r.2.1, r.1.1, r.2.2, r.1.2⟩
  | _, _ => none

/-- One iteration of the classification loop of `split_mesh` on one index
chunk: partition the chunk's indices by side and route the triangle. -/
def processChunk (n pp : Q2) (vs : List Q2) (cls : List Bool) (st : SplitState)
    (c : List ℕ) : Option SplitState :=
  routeTri n pp vs st (c.filter (fun i => cls.getD i false))
    (c.filter (fun i => ! cls.getD i false))

/-- The whole classification loop of `split_mesh` over all chunks. -/
def processChunks (n pp : Q2) (vs : List Q2) (cls : List Bool) :
    SplitState → List (List ℕ) → Option SplitState
  | st, [] => some st
  | st, c :: r =>
    match processChunk n pp vs cls st c with
    | none => none
    | some st' => processChunks n pp vs cls st' r

def refTri (t : Tri) (i : ℕ) : Bool := t.1 == i || t.2.1 == i || t.2.2 == i

/-- `remove_unused_vertices` from `split_mesh.rs`: keep exactly the vertices
referenced by some triangle (in their original order) and remap all triangle
indices through the old-to-new table. -/
def removeUnused (vs : List Q2) (ts : List Tri) : List Q2 × List Tri :=
  let used := (List.range vs.length).filter (fun i => ts.any (fun t => refTri t i))
  (used.map (posOf vs),
   ts.map (fun t => (used.indexOf t.1, used.indexOf t.2.1, used.indexOf t.2.2)))

/-- `Vec2::abs_diff_eq(·, 0.5)`: componentwise distance at most 1/2. -/
def closeB (a b : Q2) : Bool :=
  decide (|a.1 - b.1| ≤ (1 : ℚ) / 2 ∧ |a.2 - b.2| ≤ (1 : ℚ) / 2)

/-- The vertex-welding scan of `merge_vertices`: for each vertex in order,
reuse the index of an already-kept vertex within tolerance, else keep it. -/
def mergeLoop : List Q2 → List Q2 → List ℕ → List Q2 × List ℕ
  | [], uniq, nm => (uniq, nm)
  | v :: r, uniq, nm =>
    match uniq.findIdx? (fun u => closeB u v) with
    | some j => mergeLoop r uniq (nm ++ [j])
    | none => mergeLoop r (uniq ++ [v]) (nm ++ [uniq.length])

/-- `same_index` in `merge_vertices`: all three remapped indices equal. -/
def sameTri (t : Tri) : Bool := t.1 == t.2.1 && t.2.1 == t.2.2

/-- `merge_vertices` from `split_mesh.rs`: weld near-duplicate vertices,
remap triangle indices, and drop triangles whose three indices became equal. -/
def mergeVertices (vs : List Q2) (ts : List Tri) : List Q2 × List Tri :=
  let um := mergeLoop vs [] []
  (um.1,
   (ts.map (fun t => (um.2.getD t.1 0, um.2.getD t.2.1 0, um.2.getD t.2.2 0))).filter
     (fun t => ! sameTri t))

def q2min (a b : Q2) : Q2 := (min a.1 b.1, min a.2 b.2)

def q2max (a b : Q2) : Q2 := (max a.1 b.1, max a.2 b.2)

/-- `vertices_center`: the axis-aligned bounding-box centre `(min+max)/2`
of a non-empty vertex list (the source folds from `±∞`; the empty case,
which would give NaN, is totalised to the origin). -/
def verticesCenter (vs : List Q2) : Q2 :=
  match vs with
  | [] => (0, 0)
  | v :: r =>
    let mn := r.foldl q2min v
    let mx := r.foldl q2max v
    ((mn.1 + mx.1) / 2, (mn.2 + mx.2) / 2)

def tripleFlat (t : Tri) : List ℕ := [t.1, t.2.1, t.2.2]

/-- `create_mesh_2d` from `split_mesh.rs`: positions are kept (z set to 0 and
dropped again here), indices are flattened and cast `as u16`, i.e. reduced
mod 2^16 with no range check. -/
def createMesh2d (vs : List Q2) (ts : List Tri) : MeshQ :=
  ⟨vs, (ts.flatMap tripleFlat).map (fun a => a % 65536)⟩

/-- Modelled from the spec: `valid_mesh` is imported by `split_mesh.rs` from
`mesh_utils` but its definition is not part of the sources at hand.  Spec
4.4: a mesh is valid iff it has at least 1 vertex, at least 1 triangle, a
triangle-index count divisible by 3, and not all indices identical. -/
def validMesh (m : MeshQ) : Bool :=
  decide (1 ≤ m.verts.length) && decide (1 ≤ m.idxs.length)
    && (m.idxs.length % 3 == 0) && ! m.idxs.all (fun i => i == m.idxs.headD 0)

/-- The cleanup pipeline applied to one side's raw buffers in `split_mesh`:
remove unused vertices, weld, recenter, build the mesh.  Returns the mesh
and the recenter offset. -/
def cleanedMesh (vtx : List Q2) (tris : List Tri) : MeshQ × Q2 :=
  let r := removeUnused vtx tris
  let mm := mergeVertices r.1 r.2
  let c := verticesCenter mm.1
  (createMesh2d (mm.1.map (fun v => q2sub v c)) mm.2, c)

/-- The per-side tail of `split_mesh`: `None` when the raw buffers are empty
or the cleaned mesh fails `valid_mesh`. -/
def finishSide (vtx : List Q2) (tris : List Tri) : Option (MeshQ × Q2) :=
  if vtx.isEmpty || tris.isEmpty then none
  else if validMesh (cleanedMesh vtx tris).1 then some (cleanedMesh vtx tris) else none

/-- The classification loop of `split_mesh` run from the initial state (both
vertex buffers start as a copy of the input vertices). -/
def sideBuffers (m : MeshQ) (dir pp : Q2) : Option SplitState :=
  processChunks (perpQ dir) pp m.verts (classifyB m.verts (perpQ dir) pp)
    ⟨[], [], m.verts, m.verts⟩ (chunk3 m.idxs)

/-- `split_mesh` from `split_mesh.rs`.  The outer `Option` models the
`panic!` on an invalid classification (never hit for well-formed input);
the inner options are the source's `[Option<(Mesh, Vec2)>; 2]`. -/
def splitMesh (m : MeshQ) (dir pp : Q2) :
    Option (Option (MeshQ × Q2) × Option (MeshQ × Q2)) :=
  (sideBuffers m dir pp).map
    (fun st => (finishSide st.aVtx st.aIdx, finishSide st.bVtx st.bIdx))

def dist2 (a b : Q2) : ℚ := (b.1 - a.1) * (b.1 - a.1) + (b.2 - a.2) * (b.2 - a.2)

/-- Modelled from the spec: `mesh_longest_axis` is imported by
`split_mesh.rs` from `mesh_utils` but its definition is not part of the
sources at hand.  Spec 4.1: a brute-force scan of all vertex pairs returning
the direction of the pair at maximum Euclidean distance (the spec's
normalisation to a unit vector is dropped; only the direction is used
downstream, and `splitMesh` is invariant under positive rescaling). -/
def meshLongestAxis (m : MeshQ) : Q2 :=
  let pairs := m.verts.flatMap (fun a => m.verts.map (fun b => (a, b)))
  let best := pairs.foldl
    (fun best p => if dist2 best.1 best.2 < dist2 p.1 p.2 then p else best)
    ((0, 0), (0, 0))
  q2sub best.2 best.1

/-- The emission test of `shatter_mesh`:
`depth > SHATTER_MAX_RECURSION_DEPTH || area <= max_shard_area`. -/
def shardDone (maxA : ℚ) (mm : MeshQ) (d : ℕ) : Bool :=
  decide (3 < d) || decide (meshArea mm ≤ maxA)

def pushHalf (off : Q2) (d : ℕ) : Option (MeshQ × Q2) → List (MeshQ × Q2 × ℕ)
  | none => []
  | some (hm, ho) => [(hm, q2add off ho, d + 1)]

def muItem (d : ℕ) : ℕ := 3 ^ (4 - min d 4)

def muQueue (q : List (MeshQ × Q2 × ℕ)) : ℕ := (q.map (fun x => muItem x.2.2)).sum

/-- The worklist loop of `shatter_mesh`, instrumented with explicit fuel (one
unit per loop iteration) and keeping each emitted fragment's depth.  The
queue is the source's `Vec` used as a stack (`push`/`pop` at the head here);
`none` models the source panicking inside `split_mesh`. -/
def shatterFuel (maxA : ℚ) :
    ℕ → List (MeshQ × Q2 × ℕ) → List (MeshQ × Q2 × ℕ) → Option (List (MeshQ × Q2 × ℕ))
  | 0, _, _ => none
  | _ + 1, [], acc => some acc
  | fuel + 1, (mm, off, d) :: rest, acc =>
    if shardDone maxA mm d then shatterFuel maxA fuel rest ((mm, off, d) :: acc)
    else
      match splitMesh mm (perpQ (meshLongestAxis mm)) (0, 0) with
      | none => none
      | some (sa, sb) => shatterFuel maxA fuel (pushHalf off d sb ++ pushHalf off d sa ++ rest) acc

/-- `shatter_mesh` with fragments carrying their emission depth. -/
def shatterMeshAux (m : MeshQ) (maxA : ℚ) : Option (List (MeshQ × Q2 × ℕ)) :=
  shatterFuel maxA (muQueue [(m, (0, 0), 0)] + 1) [(m, (0, 0), 0)] []

/-- `shatter_mesh` from `split_mesh.rs`: the depth bookkeeping projected away. -/
def shatterMesh (m : MeshQ) (maxA : ℚ) : Option (List (MeshQ × Q2)) :=
  (shatterMeshAux m maxA).map (List.map (fun x => (x.1, x.2.1)))

/-- The candidate filter of `trim_mesh`:
`v[0].abs() > 0. && v[1].abs() > 0.` (both coordinates nonzero). -/
def candidatePool (vs : List Q2) : List Q2 :=
  vs.filter (fun v => decide (0 < |v.1|) && decide (0 < |v.2|))

/-- The cutting loop of `trim_mesh`, parametrised by the sampled candidates.
Each list entry carries the candidate vertex and the chord point
`vertex_direction * radius` (irrational in the source, supplied here as an
oracle).  The `ℕ` component counts performed cuts; `none` models the
`unreachable!` panic when side A of a split is absent. -/
def trimGo : MeshQ → Q2 → List (MeshQ × Q2) → ℕ → List (Q2 × Q2) →
    Option (MeshQ × Q2 × List (MeshQ × Q2) × ℕ)
  | mm, off, shards, k, [] => some (mm, off, shards, k)
  | mm, off, shards, k, (v, q) :: rest =>
    match splitMesh mm (perpQ v) q with
    | some (some (ma, oa), sb) =>
      let shards' := match sb with
        | some (mb, ob) => shards ++ [(mb, q2add off ob)]
        | none => shards
      trimGo ma (q2add off oa) shards' (k + 1) rest
    | _ => none

/-- `trim_mesh` from `split_mesh.rs`, parametrised by the random sample
(`choose_multiple(&mut rng, 5)` draws at most 5 candidates from
`candidatePool`). -/
def trimMeshWith (m : MeshQ) (sel : List (Q2 × Q2)) :
    Option (MeshQ × Q2 × List (MeshQ × Q2) × ℕ) :=
  trimGo m (0, 0) [] 0 sel

/-- The 2x2 axis-aligned square centred at the origin used by the source's
own tests (`test_split_mesh_vertically`). -/
def sqMesh : MeshQ := ⟨[(-1, -1), (1, -1), (1, 1), (-1, 1)], [0, 1, 2, 2, 3, 0]⟩

/-- C1 counterexample input: two triangles, one (vertices 3,4,5) strictly left
of the cut line `x = -1/2`, one (vertices 0,1,2) strictly right of it with two
of its vertices within the welding tolerance of each other. -/
def cex1 : MeshQ := ⟨[(0, 0), (4, 0), (4, 2/5), (-2, 0), (-1, 0), (-1, 1)], [0, 1, 2, 3, 4, 5]⟩

/-- Side A produced by splitting `cex1`. -/
def cex1A : MeshQ := ⟨[(-1/2, -1/2), (1/2, -1/2), (1/2, 1/2)], [0, 1, 2]⟩

/-- Side B produced by splitting `cex1`: the two close vertices were welded,
collapsing the triangle to zero area. -/
def cex1B : MeshQ := ⟨[(-2, 0), (2, 0)], [0, 1, 1]⟩

/-- C2 counterexample input: a single clockwise-wound triangle. -/
def cex2 : MeshQ := ⟨[(0, 0), (0, 5), (5, 0)], [0, 1, 2]⟩

/-- The mesh returned for side A when `cex2` is cut entirely on one side:
the clockwise triangle passes through unchanged (up to recentering). -/
def cex2A : MeshQ := ⟨[(-5/2, -5/2), (-5/2, 5/2), (5/2, -5/2)], [0, 1, 2]⟩

/-- A small CCW triangle of area 1/2. -/
def triM : MeshQ := ⟨[(0, 0), (1, 0), (0, 1)], [0, 1, 2]⟩

/-- Expected `splitMesh sqMesh (0,1) (0,0)` side A (mirrors the source's own
`test_split_mesh_vertically` expectations). -/
def sqSplitA : MeshQ :=
  ⟨[(-1/2, -1), (-1/2, 1), (1/2, -1), (1/2, 0), (1/2, 1)], [0, 2, 3, 1, 3, 4, 0, 3, 1]⟩

/-- Expected `splitMesh sqMesh (0,1) (0,0)` side B. -/
def sqSplitB : MeshQ :=
  ⟨[(1/2, -1), (1/2, 1), (-1/2, -1), (-1/2, 0), (-1/2, 1)], [0, 3, 2, 1, 3, 0, 1, 4, 3]⟩

/-- Main mesh of the C9 witness trim run on the square. -/
def trimMainW : MeshQ :=
  ⟨[(-1, -1), (1, -1), (-1, 1), (1/2, 1/2)], [0, 3, 3, 1, 3, 0, 2, 3, 3, 0, 3, 2]⟩

/-- The single shard of the C9 witness trim run. -/
def trimShardW : MeshQ := ⟨[(1/2, 1/2), (1/2, -1/2), (-1/2, 1/2)], [0, 0, 1, 0, 2, 0]⟩

/-- All three indices of a triangle are below `k`. -/
def triLt (t : Tri) (k : ℕ) : Prop := t.1 < k ∧ t.2.1 < k ∧ t.2.2 < k

/-- The CCW test on one `chunks(3)` chunk of a flat index list. -/
def chunkCCWB (vs : List Q2) : List ℕ → Bool
  | [a, b, c] => isCCW vs (a, b, c)
  | _ => true

/-- No two vertices of the list are within the welding tolerance. -/
def pairwiseFarB : List Q2 → Bool
  | [] => true
  | v :: r => r.all (fun u => ! closeB v u) && pairwiseFarB r

/-- The welding step of one side performs no merge: the vertices surviving
`remove_unused_vertices` are pairwise farther apart than the tolerance. -/
def noWeldB (vtx : List Q2) (tris : List Tri) : Bool :=
  pairwiseFarB (removeUnused vtx tris).1

/-- The side's cleaned vertex count fits in `u16` index space. -/
def smallSideB (vtx : List Q2) (tris : List Tri) : Bool :=
  decide ((mergeVertices (removeUnused vtx tris).1 (removeUnused vtx tris).2).1.length ≤ 65536)

/-- Both buffer invariants of one side of the classification loop: the vertex
buffer extends the input vertices, and every routed triangle has in-range
indices whose positions' signed distances satisfy the side predicate `P`. -/
def sideOK (n pp : Q2) (vs : List Q2) (P : ℚ → Prop) (V : List Q2) (T : List Tri) : Prop :=
  (∃ e, V = vs ++ e)
  ∧ ∀ t ∈ T, triLt t V.length
      ∧ P (distToPlane (posOf V t.1) n pp)
      ∧ P (distToPlane (posOf V t.2.1) n pp)
      ∧ P (distToPlane (posOf V t.2.2) n pp)

/-- The full invariant of the classification loop (side A keeps non-negative
signed distances, side B non-positive ones). -/
def splitInv (n pp : Q2) (vs : List Q2) (st : SplitState) : Prop :=
  sideOK n pp vs (fun d => 0 ≤ d) st.aVtx st.aIdx
    ∧ sideOK n pp vs (fun d => d ≤ 0) st.bVtx st.bIdx

/-- Every routed triangle is CCW with respect to its side's buffer. -/
def ccwInv (st : SplitState) : Prop :=
  (∀ t ∈ st.aIdx, isCCW st.aVtx t = true) ∧ (∀ t ∈ st.bIdx, isCCW st.bVtx t = true)

/-- A large right triangle whose vertical cut at `x = 4` produces no two
used vertices within the welding tolerance on either side. -/
def bigTri : MeshQ := ⟨[(0, 0), (8, 0), (0, 8)], [0, 1, 2]⟩

/-- The classification state of `bigTri` cut with direction `(0,1)` through
`(4,0)`: a 2-1 split appending the intersections `(4,0)` and `(4,4)`. -/
def bigStW : SplitState :=
  ⟨[(0, 3, 4), (2, 0, 4)], [(1, 4, 3)],
   [(0, 0), (8, 0), (0, 8), (4, 0), (4, 4)],
   [(0, 0), (8, 0), (0, 8), (4, 0), (4, 4)]⟩

/-- Side A of the `bigTri` cut: the recentred trapezoid, area 24. -/
def bigAW : MeshQ := ⟨[(-2, -4), (-2, 4), (2, -4), (2, 0)], [0, 2, 3, 1, 0, 3]⟩

/-- Side B of the `bigTri` cut: the recentred corner triangle, area 8. -/
def bigBW : MeshQ := ⟨[(2, -2), (-2, -2), (-2, 2)], [0, 2, 1]⟩

/-- The classification state of the square cut through `(5,5)` (a line
entirely outside it): every triangle routed whole to side A. -/
def sqOffW : SplitState :=
  ⟨[(0, 1, 2), (2, 3, 0)], [],
   [(-1, -1), (1, -1), (1, 1), (-1, 1)],
   [(-1, -1), (1, -1), (1, 1), (-1, 1)]⟩

/- ===================== general lemmas ===================== -/

theorem chunk3_full : ∀ (l : List ℕ), l.length % 3 = 0 → ∀ c ∈ chunk3 l, c.length = 3
  | [], _, c, hc => by simp [chunk3] at hc
  | [a], h, c, hc => by simp at h
  | [a, b], h, c, hc => by simp at h
  | a :: b :: d :: r, h, c, hc => by
    simp only [chunk3, List.mem_cons] at hc
    rcases hc with rfl | hc
    · rfl
    · refine chunk3_full r ?_ c hc
      simp only [List.length_cons] at h
      omega

theorem processChunk_three (n pp : Q2) (vs : List Q2) (cls : List Bool) (st : SplitState)
    (u v w : ℕ) : (processChunk n pp vs cls st [u, v, w]).isSome = true := by
  cases hu : cls[u]?.getD false <;> cases hv : cls[v]?.getD false <;> cases hw : cls[w]?.getD false <;>
    simp [processChunk, routeTri, List.filter, List.getD, hu, hv, hw]

theorem processChunks_some (n pp : Q2) (vs : List Q2) (cls : List Bool) :
    ∀ (cs : List (List ℕ)) (st : SplitState), (∀ c ∈ cs, c.length = 3) →
      (processChunks n pp vs cls st cs).isSome = true
  | [], st, _ => rfl
  | c :: r, st, h => by
    obtain ⟨u, v, w, rfl⟩ := List.length_eq_three.mp (h c (by simp))
    have h3 := processChunk_three n pp vs cls st u v w
    rw [processChunks]
    rcases hpc : processChunk n pp vs cls st [u, v, w] with _ | st'
    · rw [hpc] at h3; simp at h3
    · simp only [hpc]
      exact processChunks_some n pp vs cls r st' (fun c hc => h c (by simp [hc]))

theorem mergeLoop_pairwise : ∀ (l uniq : List Q2) (nm : List ℕ),
    List.Pairwise (fun a b => closeB a b = false) uniq →
    List.Pairwise (fun a b => closeB a b = false) (mergeLoop l uniq nm).1
  | [], uniq, nm, h => h
  | v :: r, uniq, nm, h => by
    rw [mergeLoop]
    rcases hf : uniq.findIdx? (fun u => closeB u v) with _ | j
    · simp only [hf]
      refine mergeLoop_pairwise r _ _ ?_
      rw [List.pairwise_append]
      refine ⟨h, by simp, ?_⟩
      intro a ha b hb
      simp only [List.mem_singleton] at hb
      subst hb
      exact List.findIdx?_eq_none_iff.mp hf a ha
    · simp only [hf]
      exact mergeLoop_pairwise r uniq _ h

theorem trimGo_spec : ∀ (sel : List (Q2 × Q2)) (mm : MeshQ) (off : Q2)
    (sh : List (MeshQ × Q2)) (k : ℕ) (r : MeshQ × Q2 × List (MeshQ × Q2) × ℕ),
    trimGo mm off sh k sel = some r →
    r.2.2.2 = k + sel.length ∧ r.2.2.1.length ≤ sh.length + sel.length
  | [], mm, off, sh, k, r, h => by
    rw [trimGo] at h
    cases h
    simp
  | (v, q) :: rest, mm, off, sh, k, r, h => by
    rw [trimGo] at h
    rcases hsplit : splitMesh mm (perpQ v) q with _ | ⟨sa, sb⟩
    · rw [hsplit] at h; exact absurd h (by simp)
    · rcases sa with _ | ⟨ma, oa⟩
      · rw [hsplit] at h; exact absurd h (by simp)
      · rw [hsplit] at h
        rcases sb with _ | ⟨mb, ob⟩
        · simp only [] at h
          have ih := trimGo_spec rest ma (q2add off oa) sh (k + 1) r h
          simp only [List.length_cons]
          omega
        · simp only [] at h
          have ih := trimGo_spec rest ma (q2add off oa) (sh ++ [(mb, q2add off ob)]) (k + 1) r h
          simp only [List.length_cons]
          simp only [List.length_append, List.length_singleton] at ih
          omega

theorem map_eq_self_of (f : ℕ → ℕ) : ∀ (l : List ℕ), l.map f = l → ∀ a ∈ l, f a = a
  | [], _, a, ha => absurd ha (by simp)
  | b :: r, h, a, ha => by
    simp only [List.map_cons, List.cons.injEq] at h
    rcases List.mem_cons.mp ha with rfl | ha
    · exact h.1
    · exact map_eq_self_of f r h.2 a ha

theorem posOf_append_left (vs ext : List Q2) (i : ℕ) (h : i < vs.length) :
    posOf (vs ++ ext) i = posOf vs i := by
  unfold posOf
  rw [List.getD_eq_getElem?_getD, List.getD_eq_getElem?_getD, List.getElem?_append_left h]

theorem posOf_append_right (vs ext : List Q2) (k : ℕ) :
    posOf (vs ++ ext) (vs.length + k) = posOf ext k := by
  unfold posOf
  rw [List.getD_eq_getElem?_getD, List.getD_eq_getElem?_getD,
    List.getElem?_append_right (by omega)]
  congr 2
  omega

theorem innerArea_eq_crossZ (a b c : Q2) : innerArea a b c = crossZ a b c := by
  unfold innerArea crossZ
  ring

theorem crossZ_swap23 (a b c : Q2) : crossZ a c b = -crossZ a b c := by
  unfold crossZ
  ring

theorem triAreaPts_swap23 (a b c : Q2) : triAreaPts a c b = triAreaPts a b c := by
  unfold triAreaPts
  rw [show innerArea a c b = -innerArea a b c from by unfold innerArea; ring, abs_neg]

theorem triAreaPts_swap12 (a b c : Q2) : triAreaPts b a c = triAreaPts a b c := by
  unfold triAreaPts
  rw [show innerArea b a c = -innerArea a b c from by unfold innerArea; ring, abs_neg]

theorem triAreaPts_cyc (a b c : Q2) : triAreaPts c a b = triAreaPts a b c := by
  unfold triAreaPts
  rw [show innerArea c a b = innerArea a b c from by unfold innerArea; ring]

theorem ensureCCW_cases (vs : List Q2) (t : Tri) :
    ensureCCW vs t = t ∨ ensureCCW vs t = (t.1, t.2.2, t.2.1) := by
  unfold ensureCCW
  split
  · exact Or.inl rfl
  · exact Or.inr rfl

theorem isCCW_ensureCCW (vs : List Q2) (t : Tri) : isCCW vs (ensureCCW vs t) = true := by
  unfold ensureCCW
  split
  · assumption
  · rename_i h
    simp only [isCCW, decide_eq_true_eq] at h ⊢
    push_neg at h
    have := crossZ_swap23 (posOf vs t.1) (posOf vs t.2.1) (posOf vs t.2.2)
    linarith

theorem triAreaIdx_ensureCCW (vs : List Q2) (t : Tri) :
    triAreaIdx vs (ensureCCW vs t) = triAreaIdx vs t := by
  rcases ensureCCW_cases vs t with h | h <;> rw [h]
  unfold triAreaIdx
  dsimp only
  exact triAreaPts_swap23 _ _ _

theorem triLt_ensureCCW (vs : List Q2) (t : Tri) (k : ℕ) (h : triLt t k) :
    triLt (ensureCCW vs t) k := by
  rcases ensureCCW_cases vs t with he | he <;> rw [he]
  · exact h
  · exact ⟨h.1, h.2.2, h.2.1⟩

theorem triAreaIdx_append (vs ext : List Q2) (t : Tri) (h : triLt t vs.length) :
    triAreaIdx (vs ++ ext) t = triAreaIdx vs t := by
  unfold triAreaIdx
  rw [posOf_append_left _ _ _ h.1, posOf_append_left _ _ _ h.2.1, posOf_append_left _ _ _ h.2.2]

theorem isCCW_append (vs ext : List Q2) (t : Tri) (h : triLt t vs.length) :
    isCCW (vs ++ ext) t = isCCW vs t := by
  unfold isCCW
  rw [posOf_append_left _ _ _ h.1, posOf_append_left _ _ _ h.2.1, posOf_append_left _ _ _ h.2.2]

theorem areaSum_append_tris (vs : List Q2) (ts1 ts2 : List Tri) :
    areaSum vs (ts1 ++ ts2) = areaSum vs ts1 + areaSum vs ts2 := by
  unfold areaSum
  rw [List.map_append, List.sum_append]

theorem areaSum_append_vtx (vs ext : List Q2) (ts : List Tri) (h : ∀ t ∈ ts, triLt t vs.length) :
    areaSum (vs ++ ext) ts = areaSum vs ts := by
  unfold areaSum
  exact congrArg List.sum (List.map_congr_left fun t ht => triAreaIdx_append vs ext t (h t ht))

theorem denomQ_eq (n pp v0 v1 : Q2) :
    denomQ n v0 v1 = distToPlane v1 n pp - distToPlane v0 n pp := by
  unfold denomQ distToPlane dotQ q2sub
  dsimp only
  ring

theorem dist_intersectPt (n pp v0 v1 : Q2) (h : denomQ n v0 v1 ≠ 0) :
    distToPlane (intersectPt n pp v0 v1) n pp = 0 := by
  unfold intersectPt tParam denomQ
  unfold distToPlane dotQ q2sub at *
  unfold denomQ at h
  dsimp only
  field_simp
  ring

theorem tParam_bounds (n pp v0 v1 : Q2)
    (h : (0 < distToPlane v0 n pp ∧ distToPlane v1 n pp ≤ 0)
       ∨ (distToPlane v0 n pp ≤ 0 ∧ 0 < distToPlane v1 n pp)) :
    0 ≤ tParam n pp v0 v1 ∧ tParam n pp v0 v1 ≤ 1 ∧ denomQ n v0 v1 ≠ 0 := by
  have hd := denomQ_eq n pp v0 v1
  set d0 := distToPlane v0 n pp with hd0
  set d1 := distToPlane v1 n pp with hd1
  unfold tParam
  rw [hd, ← hd0]
  rcases h with ⟨h0, h1⟩ | ⟨h0, h1⟩
  · have hden : d1 - d0 < 0 := by linarith
    refine ⟨?_, ?_, ne_of_lt hden⟩
    · rw [show d1 - d0 = -(d0 - d1) by ring, neg_div_neg_eq]
      exact div_nonneg h0.le (by linarith)
    · rw [show d1 - d0 = -(d0 - d1) by ring, neg_div_neg_eq, div_le_one (by linarith)]
      linarith
  · have hden : 0 < d1 - d0 := by linarith
    exact ⟨div_nonneg (by linarith) hden.le, (div_le_one hden).mpr (by linarith), ne_of_gt hden⟩

theorem innerArea_clip1 (v0 v1 v2 : Q2) (t1 t2 : ℚ) :
    innerArea v0 (v0.1 + t1 * (v1.1 - v0.1), v0.2 + t1 * (v1.2 - v0.2))
      (v0.1 + t2 * (v2.1 - v0.1), v0.2 + t2 * (v2.2 - v0.2))
      = t1 * t2 * innerArea v0 v1 v2 := by
  unfold innerArea
  dsimp only
  ring

theorem innerArea_clip2 (v0 v1 v2 : Q2) (t1 t2 : ℚ) :
    innerArea v1 (v0.1 + t2 * (v2.1 - v0.1), v0.2 + t2 * (v2.2 - v0.2))
      (v0.1 + t1 * (v1.1 - v0.1), v0.2 + t1 * (v1.2 - v0.2))
      = (1 - t1) * t2 * innerArea v0 v1 v2 := by
  unfold innerArea
  dsimp only
  ring

theorem innerArea_clip3 (v0 v1 v2 : Q2) (t2 : ℚ) :
    innerArea v2 (v0.1 + t2 * (v2.1 - v0.1), v0.2 + t2 * (v2.2 - v0.2)) v1
      = (1 - t2) * innerArea v0 v1 v2 := by
  unfold innerArea
  dsimp only
  ring

theorem area_partition (n pp v0 v1 v2 : Q2)
    (ht1a : 0 ≤ tParam n pp v0 v1) (ht1b : tParam n pp v0 v1 ≤ 1)
    (ht2a : 0 ≤ tParam n pp v0 v2) (ht2b : tParam n pp v0 v2 ≤ 1) :
    triAreaPts v0 (intersectPt n pp v0 v1) (intersectPt n pp v0 v2)
      + triAreaPts v1 (intersectPt n pp v0 v2) (intersectPt n pp v0 v1)
      + triAreaPts v2 (intersectPt n pp v0 v2) v1
      = triAreaPts v0 v1 v2 := by
  have e1 : innerArea v0 (intersectPt n pp v0 v1) (intersectPt n pp v0 v2)
      = tParam n pp v0 v1 * tParam n pp v0 v2 * innerArea v0 v1 v2 :=
    innerArea_clip1 v0 v1 v2 _ _
  have e2 : innerArea v1 (intersectPt n pp v0 v2) (intersectPt n pp v0 v1)
      = (1 - tParam n pp v0 v1) * tParam n pp v0 v2 * innerArea v0 v1 v2 :=
    innerArea_clip2 v0 v1 v2 _ _
  have e3 : innerArea v2 (intersectPt n pp v0 v2) v1
      = (1 - tParam n pp v0 v2) * innerArea v0 v1 v2 :=
    innerArea_clip3 v0 v1 v2 _
  unfold triAreaPts
  rw [e1, e2, e3]
  have h1 : |tParam n pp v0 v1 * tParam n pp v0 v2 * innerArea v0 v1 v2|
      = tParam n pp v0 v1 * tParam n pp v0 v2 * |innerArea v0 v1 v2| := by
    rw [abs_mul, abs_mul, abs_of_nonneg ht1a, abs_of_nonneg ht2a]
  have h2 : |(1 - tParam n pp v0 v1) * tParam n pp v0 v2 * innerArea v0 v1 v2|
      = (1 - tParam n pp v0 v1) * tParam n pp v0 v2 * |innerArea v0 v1 v2| := by
    rw [abs_mul, abs_mul, abs_of_nonneg (by linarith : (0:ℚ) ≤ 1 - tParam n pp v0 v1),
      abs_of_nonneg ht2a]
  have h3 : |(1 - tParam n pp v0 v2) * innerArea v0 v1 v2|
      = (1 - tParam n pp v0 v2) * |innerArea v0 v1 v2| := by
    rw [abs_mul, abs_of_nonneg (by linarith : (0:ℚ) ≤ 1 - tParam n pp v0 v2)]
  rw [h1, h2, h3]
  ring

theorem posOf_pair0 (V : List Q2) (i1 i2 : Q2) : posOf (V ++ [i1, i2]) V.length = i1 := by
  have h := posOf_append_right V [i1, i2] 0
  simpa using h

theorem posOf_pair1 (V : List Q2) (i1 i2 : Q2) : posOf (V ++ [i1, i2]) (V.length + 1) = i2 := by
  have h := posOf_append_right V [i1, i2] 1
  simpa using h

theorem areaSum_singleton (vs : List Q2) (t : Tri) : areaSum vs [t] = triAreaIdx vs t := by
  simp [areaSum]

theorem areaSum_pair (vs : List Q2) (t1 t2 : Tri) :
    areaSum vs [t1, t2] = triAreaIdx vs t1 + triAreaIdx vs t2 := by
  simp [areaSum]

/-- The heart of the straddling-triangle case: clipping preserves the side
invariants, adds exactly the original triangle's area across the two sides,
and all newly created triangles are CCW. -/
theorem clip_step (n pp : Q2) (vs : List Q2) (Pmin Pmaj : ℚ → Prop)
    (emin emaj : List Q2) (minT majT : List Tri) (m j0 j1 : ℕ)
    (hm : m < vs.length) (hj0 : j0 < vs.length) (hj1 : j1 < vs.length)
    (hd : (0 < distToPlane (posOf vs m) n pp ∧ distToPlane (posOf vs j0) n pp ≤ 0
            ∧ distToPlane (posOf vs j1) n pp ≤ 0)
        ∨ (distToPlane (posOf vs m) n pp ≤ 0 ∧ 0 < distToPlane (posOf vs j0) n pp
            ∧ 0 < distToPlane (posOf vs j1) n pp))
    (hPmin0 : Pmin 0) (hPmaj0 : Pmaj 0)
    (hPm : Pmin (distToPlane (posOf vs m) n pp))
    (hPj0 : Pmaj (distToPlane (posOf vs j0) n pp))
    (hPj1 : Pmaj (distToPlane (posOf vs j1) n pp))
    (hminOK : sideOK n pp vs Pmin (vs ++ emin) minT)
    (hmajOK : sideOK n pp vs Pmaj (vs ++ emaj) majT) :
    sideOK n pp vs Pmin (splitTriangleQ n pp vs m j0 j1 minT (vs ++ emin) majT (vs ++ emaj)).1.2
        (splitTriangleQ n pp vs m j0 j1 minT (vs ++ emin) majT (vs ++ emaj)).1.1
    ∧ sideOK n pp vs Pmaj (splitTriangleQ n pp vs m j0 j1 minT (vs ++ emin) majT (vs ++ emaj)).2.2
        (splitTriangleQ n pp vs m j0 j1 minT (vs ++ emin) majT (vs ++ emaj)).2.1
    ∧ areaSum (splitTriangleQ n pp vs m j0 j1 minT (vs ++ emin) majT (vs ++ emaj)).1.2
          (splitTriangleQ n pp vs m j0 j1 minT (vs ++ emin) majT (vs ++ emaj)).1.1
        + areaSum (splitTriangleQ n pp vs m j0 j1 minT (vs ++ emin) majT (vs ++ emaj)).2.2
          (splitTriangleQ n pp vs m j0 j1 minT (vs ++ emin) majT (vs ++ emaj)).2.1
      = areaSum (vs ++ emin) minT + areaSum (vs ++ emaj) majT
        + triAreaPts (posOf vs m) (posOf vs j0) (posOf vs j1)
    ∧ ((∀ t ∈ minT, isCCW (vs ++ emin) t = true) →
        ∀ t ∈ (splitTriangleQ n pp vs m j0 j1 minT (vs ++ emin) majT (vs ++ emaj)).1.1,
          isCCW (splitTriangleQ n pp vs m j0 j1 minT (vs ++ emin) majT (vs ++ emaj)).1.2 t = true)
    ∧ ((∀ t ∈ majT, isCCW (vs ++ emaj) t = true) →
        ∀ t ∈ (splitTriangleQ n pp vs m j0 j1 minT (vs ++ emin) majT (vs ++ emaj)).2.1,
          isCCW (splitTriangleQ n pp vs m j0 j1 minT (vs ++ emin) majT (vs ++ emaj)).2.2 t = true) := by
  have hO1 : (0 < distToPlane (posOf vs m) n pp ∧ distToPlane (posOf vs j0) n pp ≤ 0)
      ∨ (distToPlane (posOf vs m) n pp ≤ 0 ∧ 0 < distToPlane (posOf vs j0) n pp) := by tauto
  have hO2 : (0 < distToPlane (posOf vs m) n pp ∧ distToPlane (posOf vs j1) n pp ≤ 0)
      ∨ (distToPlane (posOf vs m) n pp ≤ 0 ∧ 0 < distToPlane (posOf vs j1) n pp) := by tauto
  obtain ⟨ht1a, ht1b, hden1⟩ := tParam_bounds n pp (posOf vs m) (posOf vs j0) hO1
  obtain ⟨ht2a, ht2b, hden2⟩ := tParam_bounds n pp (posOf vs m) (posOf vs j1) hO2
  set i1 := intersectPt n pp (posOf vs m) (posOf vs j0) with hi1
  set i2 := intersectPt n pp (posOf vs m) (posOf vs j1) with hi2
  have hdi1 : distToPlane i1 n pp = 0 := dist_intersectPt n pp _ _ hden1
  have hdi2 : distToPlane i2 n pp = 0 := dist_intersectPt n pp _ _ hden2
  have hsplit : splitTriangleQ n pp vs m j0 j1 minT (vs ++ emin) majT (vs ++ emaj)
      = ((minT ++ [ensureCCW ((vs ++ emin) ++ [i1, i2])
              (m, (vs ++ emin).length, (vs ++ emin).length + 1)],
          (vs ++ emin) ++ [i1, i2]),
         (majT ++ [ensureCCW ((vs ++ emaj) ++ [i1, i2])
              (j0, (vs ++ emaj).length + 1, (vs ++ emaj).length),
            ensureCCW ((vs ++ emaj) ++ [i1, i2])
              (j1, (vs ++ emaj).length + 1, j0)],
          (vs ++ emaj) ++ [i1, i2])) := rfl
  rw [hsplit]
  dsimp only
  have hmlen1 : m < (vs ++ emin).length := by rw [List.length_append]; omega
  have hmlen2 : j0 < (vs ++ emaj).length := by rw [List.length_append]; omega
  have hmlen3 : j1 < (vs ++ emaj).length := by rw [List.length_append]; omega
  have hpos_m : posOf ((vs ++ emin) ++ [i1, i2]) m = posOf vs m := by
    rw [posOf_append_left _ _ _ hmlen1, posOf_append_left _ _ _ hm]
  have hpos_i1 : posOf ((vs ++ emin) ++ [i1, i2]) (vs ++ emin).length = i1 :=
    posOf_pair0 _ _ _
  have hpos_i2 : posOf ((vs ++ emin) ++ [i1, i2]) ((vs ++ emin).length + 1) = i2 :=
    posOf_pair1 _ _ _
  have hpos_j0 : posOf ((vs ++ emaj) ++ [i1, i2]) j0 = posOf vs j0 := by
    rw [posOf_append_left _ _ _ hmlen2, posOf_append_left _ _ _ hj0]
  have hpos_j1 : posOf ((vs ++ emaj) ++ [i1, i2]) j1 = posOf vs j1 := by
    rw [posOf_append_left _ _ _ hmlen3, posOf_append_left _ _ _ hj1]
  have hpos_i1' : posOf ((vs ++ emaj) ++ [i1, i2]) (vs ++ emaj).length = i1 :=
    posOf_pair0 _ _ _
  have hpos_i2' : posOf ((vs ++ emaj) ++ [i1, i2]) ((vs ++ emaj).length + 1) = i2 :=
    posOf_pair1 _ _ _
  have hta : triAreaIdx ((vs ++ emin) ++ [i1, i2])
      (ensureCCW ((vs ++ emin) ++ [i1, i2])
        (m, (vs ++ emin).length, (vs ++ emin).length + 1))
      = triAreaPts (posOf vs m) i1 i2 := by
    rw [triAreaIdx_ensureCCW]
    unfold triAreaIdx
    dsimp only
    rw [hpos_m, hpos_i1, hpos_i2]
  have htb1 : triAreaIdx ((vs ++ emaj) ++ [i1, i2])
      (ensureCCW ((vs ++ emaj) ++ [i1, i2])
        (j0, (vs ++ emaj).length + 1, (vs ++ emaj).length))
      = triAreaPts (posOf vs j0) i2 i1 := by
    rw [triAreaIdx_ensureCCW]
    unfold triAreaIdx
    dsimp only
    rw [hpos_j0, hpos_i1', hpos_i2']
  have htb2 : triAreaIdx ((vs ++ emaj) ++ [i1, i2])
      (ensureCCW ((vs ++ emaj) ++ [i1, i2])
        (j1, (vs ++ emaj).length + 1, j0))
      = triAreaPts (posOf vs j1) i2 (posOf vs j0) := by
    rw [triAreaIdx_ensureCCW]
    unfold triAreaIdx
    dsimp only
    rw [hpos_j1, hpos_j0, hpos_i2']
  refine ⟨⟨⟨emin ++ [i1, i2], by rw [List.append_assoc]⟩, ?_⟩,
      ⟨⟨emaj ++ [i1, i2], by rw [List.append_assoc]⟩, ?_⟩, ?_, ?_, ?_⟩
  · intro t ht
    rcases List.mem_append.mp ht with ht | ht
    · obtain ⟨hlt, h1, h2, h3⟩ := hminOK.2 t ht
      obtain ⟨hl1, hl2, hl3⟩ := hlt
      refine ⟨⟨by simp only [List.length_append, List.length_cons, List.length_nil] at *; omega, by simp only [List.length_append, List.length_cons, List.length_nil] at *; omega, by simp only [List.length_append, List.length_cons, List.length_nil] at *; omega⟩, ?_, ?_, ?_⟩
      · rw [posOf_append_left _ _ _ hl1]; exact h1
      · rw [posOf_append_left _ _ _ hl2]; exact h2
      · rw [posOf_append_left _ _ _ hl3]; exact h3
    · obtain rfl := List.mem_singleton.mp ht
      rcases ensureCCW_cases ((vs ++ emin) ++ [i1, i2])
          (m, (vs ++ emin).length, (vs ++ emin).length + 1) with he | he <;> rw [he] <;> dsimp only
      · exact ⟨⟨by simp only [List.length_append, List.length_cons, List.length_nil] at *; omega, by simp only [List.length_append, List.length_cons, List.length_nil] at *; omega, by simp only [List.length_append, List.length_cons, List.length_nil] at *; omega⟩,
          by rw [hpos_m]; exact hPm,
          by rw [hpos_i1, hdi1]; exact hPmin0,
          by rw [hpos_i2, hdi2]; exact hPmin0⟩
      · exact ⟨⟨by simp only [List.length_append, List.length_cons, List.length_nil] at *; omega, by simp only [List.length_append, List.length_cons, List.length_nil] at *; omega, by simp only [List.length_append, List.length_cons, List.length_nil] at *; omega⟩,
          by rw [hpos_m]; exact hPm,
          by rw [hpos_i2, hdi2]; exact hPmin0,
          by rw [hpos_i1, hdi1]; exact hPmin0⟩
  · intro t ht
    rcases List.mem_append.mp ht with ht | ht
    · obtain ⟨hlt, h1, h2, h3⟩ := hmajOK.2 t ht
      obtain ⟨hl1, hl2, hl3⟩ := hlt
      refine ⟨⟨by simp only [List.length_append, List.length_cons, List.length_nil] at *; omega, by simp only [List.length_append, List.length_cons, List.length_nil] at *; omega, by simp only [List.length_append, List.length_cons, List.length_nil] at *; omega⟩, ?_, ?_, ?_⟩
      · rw [posOf_append_left _ _ _ hl1]; exact h1
      · rw [posOf_append_left _ _ _ hl2]; exact h2
      · rw [posOf_append_left _ _ _ hl3]; exact h3
    · have ht' : t = ensureCCW ((vs ++ emaj) ++ [i1, i2])
            (j0, (vs ++ emaj).length + 1, (vs ++ emaj).length)
          ∨ t = ensureCCW ((vs ++ emaj) ++ [i1, i2])
            (j1, (vs ++ emaj).length + 1, j0) := by simpa using ht
      rcases ht' with rfl | rfl
      · rcases ensureCCW_cases ((vs ++ emaj) ++ [i1, i2])
            (j0, (vs ++ emaj).length + 1, (vs ++ emaj).length) with he | he <;>
          rw [he] <;> dsimp only
        · exact ⟨⟨by simp only [List.length_append, List.length_cons, List.length_nil] at *; omega, by simp only [List.length_append, List.length_cons, List.length_nil] at *; omega, by simp only [List.length_append, List.length_cons, List.length_nil] at *; omega⟩,
            by rw [hpos_j0]; exact hPj0,
            by rw [hpos_i2', hdi2]; exact hPmaj0,
            by rw [hpos_i1', hdi1]; exact hPmaj0⟩
        · exact ⟨⟨by simp only [List.length_append, List.length_cons, List.length_nil] at *; omega, by simp only [List.length_append, List.length_cons, List.length_nil] at *; omega, by simp only [List.length_append, List.length_cons, List.length_nil] at *; omega⟩,
            by rw [hpos_j0]; exact hPj0,
            by rw [hpos_i1', hdi1]; exact hPmaj0,
            by rw [hpos_i2', hdi2]; exact hPmaj0⟩
      · rcases ensureCCW_cases ((vs ++ emaj) ++ [i1, i2])
            (j1, (vs ++ emaj).length + 1, j0) with he | he <;>
          rw [he] <;> dsimp only
        · exact ⟨⟨by simp only [List.length_append, List.length_cons, List.length_nil] at *; omega, by simp only [List.length_append, List.length_cons, List.length_nil] at *; omega, by simp only [List.length_append, List.length_cons, List.length_nil] at *; omega⟩,
            by rw [hpos_j1]; exact hPj1,
            by rw [hpos_i2', hdi2]; exact hPmaj0,
            by rw [hpos_j0]; exact hPj0⟩
        · exact ⟨⟨by simp only [List.length_append, List.length_cons, List.length_nil] at *; omega, by simp only [List.length_append, List.length_cons, List.length_nil] at *; omega, by simp only [List.length_append, List.length_cons, List.length_nil] at *; omega⟩,
            by rw [hpos_j1]; exact hPj1,
            by rw [hpos_j0]; exact hPj0,
            by rw [hpos_i2', hdi2]; exact hPmaj0⟩
  · rw [areaSum_append_tris, areaSum_append_tris, areaSum_singleton, areaSum_pair]
    rw [areaSum_append_vtx _ _ _ (fun t ht => (hminOK.2 t ht).1),
      areaSum_append_vtx _ _ _ (fun t ht => (hmajOK.2 t ht).1)]
    rw [hta, htb1, htb2]
    have hpart := area_partition n pp (posOf vs m) (posOf vs j0) (posOf vs j1)
      ht1a ht1b ht2a ht2b
    rw [← hi1, ← hi2] at hpart
    linarith
  · intro hccw t ht
    rcases List.mem_append.mp ht with ht | ht
    · rw [isCCW_append _ _ _ (hminOK.2 t ht).1]
      exact hccw t ht
    · obtain rfl := List.mem_singleton.mp ht
      exact isCCW_ensureCCW _ _
  · intro hccw t ht
    rcases List.mem_append.mp ht with ht | ht
    · rw [isCCW_append _ _ _ (hmajOK.2 t ht).1]
      exact hccw t ht
    · have ht' : t = ensureCCW ((vs ++ emaj) ++ [i1, i2])
            (j0, (vs ++ emaj).length + 1, (vs ++ emaj).length)
          ∨ t = ensureCCW ((vs ++ emaj) ++ [i1, i2])
            (j1, (vs ++ emaj).length + 1, j0) := by simpa using ht
      rcases ht' with rfl | rfl <;> exact isCCW_ensureCCW _ _

theorem classifyB_getD (vs : List Q2) (n pp : Q2) (i : ℕ) (h : i < vs.length) :
    (classifyB vs n pp).getD i false = decide (0 < distToPlane (posOf vs i) n pp) := by
  unfold classifyB posOf
  rw [List.getD_eq_getElem?_getD, List.getElem?_map, List.getD_eq_getElem?_getD,
    List.getElem?_eq_getElem h]
  rfl

theorem filter_partition_len (cls : List Bool) : ∀ (c : List ℕ),
    (c.filter (fun i => cls.getD i false)).length
      + (c.filter (fun i => ! cls.getD i false)).length = c.length
  | [] => rfl
  | a :: r => by
    have ih := filter_partition_len cls r
    simp only [List.getD_eq_getElem?_getD] at ih ⊢
    cases h : cls[a]?.getD false <;> simp [List.filter_cons, h] <;> omega

theorem routeTri_some (n pp : Q2) (vs : List Q2) (st : SplitState) (sa sb : List ℕ)
    (st' : SplitState) (h : routeTri n pp vs st sa sb = some st') :
    (∃ x y z, sa = [x, y, z] ∧ sb = []
      ∧ st' = { st with aIdx := st.aIdx ++ [(x, y, z)] })
    ∨ (∃ x y z, sa = [] ∧ sb = [x, y, z]
      ∧ st' = { st with bIdx := st.bIdx ++ [(x, y, z)] })
    ∨ (∃ a0 b0 b1, sa = [a0] ∧ sb = [b0, b1]
      ∧ st' = ⟨(splitTriangleQ n pp vs a0 b0 b1 st.aIdx st.aVtx st.bIdx st.bVtx).1.1,
               (splitTriangleQ n pp vs a0 b0 b1 st.aIdx st.aVtx st.bIdx st.bVtx).2.1,
               (splitTriangleQ n pp vs a0 b0 b1 st.aIdx st.aVtx st.bIdx st.bVtx).1.2,
               (splitTriangleQ n pp vs a0 b0 b1 st.aIdx st.aVtx st.bIdx st.bVtx).2.2⟩)
    ∨ (∃ b0 a0 a1, sa = [a0, a1] ∧ sb = [b0]
      ∧ st' = ⟨(splitTriangleQ n pp vs b0 a0 a1 st.bIdx st.bVtx st.aIdx st.aVtx).2.1,
               (splitTriangleQ n pp vs b0 a0 a1 st.bIdx st.bVtx st.aIdx st.aVtx).1.1,
               (splitTriangleQ n pp vs b0 a0 a1 st.bIdx st.bVtx st.aIdx st.aVtx).2.2,
               (splitTriangleQ n pp vs b0 a0 a1 st.bIdx st.bVtx st.aIdx st.aVtx).1.2⟩) := by
  unfold routeTri at h
  split at h
  · injection h with h
    exact Or.inl ⟨_, _, _, rfl, rfl, h.symm⟩
  · injection h with h
    exact Or.inr (Or.inl ⟨_, _, _, rfl, rfl, h.symm⟩)
  · dsimp only at h
    injection h with h
    exact Or.inr (Or.inr (Or.inl ⟨_, _, _, rfl, rfl, h.symm⟩))
  · dsimp only at h
    injection h with h
    exact Or.inr (Or.inr (Or.inr ⟨_, _, _, rfl, rfl, h.symm⟩))
  · exact Option.noConfusion h

theorem filter_not_partition (p : ℕ → Bool) : ∀ (c : List ℕ),
    (c.filter p).length + (c.filter (fun i => ! p i)).length = c.length
  | [] => rfl
  | a :: r => by
    have ih := filter_not_partition p r
    cases h : p a <;> simp [List.filter_cons, h] <;> omega

/-- A 3-element chunk partitioned into one minority index and two majority
indices has the area of the triangle at those indices (in minority-first
order). -/
theorem chunkArea_partition (vs : List Q2) (p : ℕ → Bool) (c : List ℕ) (m j0 j1 : ℕ)
    (hm : c.filter p = [m]) (hj : c.filter (fun i => ! p i) = [j0, j1]) :
    chunkArea vs c = triAreaPts (posOf vs m) (posOf vs j0) (posOf vs j1) := by
  have hlen3 : c.length = 3 := by
    have h3 := filter_not_partition p c
    rw [hm, hj] at h3
    simpa using h3.symm
  obtain ⟨u, v, w, rfl⟩ := List.length_eq_three.mp hlen3
  cases hu : p u
  · cases hv : p v
    · cases hw : p w
      · simp [List.filter_cons, List.filter_nil, hu, hv, hw] at hm
      · simp [List.filter_cons, List.filter_nil, hu, hv, hw] at hm hj
        obtain rfl := hm
        obtain ⟨rfl, rfl⟩ := hj
        simp only [chunkArea]
        rw [triAreaPts_cyc, triAreaPts_cyc]
    · cases hw : p w
      · simp [List.filter_cons, List.filter_nil, hu, hv, hw] at hm hj
        obtain rfl := hm
        obtain ⟨rfl, rfl⟩ := hj
        simp only [chunkArea]
        rw [triAreaPts_swap12]
      · simp [List.filter_cons, List.filter_nil, hu, hv, hw] at hm
  · cases hv : p v
    · cases hw : p w
      · simp [List.filter_cons, List.filter_nil, hu, hv, hw] at hm hj
        obtain rfl := hm
        obtain ⟨rfl, rfl⟩ := hj
        simp only [chunkArea]
      · simp [List.filter_cons, List.filter_nil, hu, hv, hw] at hm
    · cases hw : p w <;> simp [List.filter_cons, List.filter_nil, hu, hv, hw] at hm

theorem processChunk_inv (n pp : Q2) (vs : List Q2) (st st' : SplitState) (c : List ℕ)
    (hc : ∀ i ∈ c, i < vs.length)
    (hp : processChunk n pp vs (classifyB vs n pp) st c = some st')
    (hInv : splitInv n pp vs st) :
    splitInv n pp vs st'
    ∧ areaSum st'.aVtx st'.aIdx + areaSum st'.bVtx st'.bIdx
      = areaSum st.aVtx st.aIdx + areaSum st.bVtx st.bIdx + chunkArea vs c
    ∧ (chunkCCWB vs c = true → ccwInv st → ccwInv st') := by
  have hposT : ∀ i, i ∈ c.filter (fun i => (classifyB vs n pp).getD i false) →
      i < vs.length ∧ 0 < distToPlane (posOf vs i) n pp := by
    intro i hi
    have hic := List.mem_of_mem_filter hi
    have hip0 := List.of_mem_filter hi
    have hip : (classifyB vs n pp).getD i false = true := hip0
    refine ⟨hc i hic, ?_⟩
    rw [classifyB_getD vs n pp i (hc i hic)] at hip
    exact of_decide_eq_true hip
  have hnegT : ∀ i, i ∈ c.filter (fun i => ! (classifyB vs n pp).getD i false) →
      i < vs.length ∧ distToPlane (posOf vs i) n pp ≤ 0 := by
    intro i hi
    have hic := List.mem_of_mem_filter hi
    have hip0 := List.of_mem_filter hi
    have hip : (! (classifyB vs n pp).getD i false) = true := hip0
    have hfalse : (classifyB vs n pp).getD i false = false := by
      cases hx : (classifyB vs n pp).getD i false
      · rfl
      · rw [hx] at hip
        exact absurd hip (by simp)
    refine ⟨hc i hic, ?_⟩
    rw [classifyB_getD vs n pp i (hc i hic)] at hfalse
    exact le_of_not_lt (of_decide_eq_false hfalse)
  unfold processChunk at hp
  rcases routeTri_some n pp vs st _ _ st' hp with
      ⟨x, y, z, hsa, hsb, hst'⟩ | ⟨x, y, z, hsa, hsb, hst'⟩
      | ⟨a0, b0, b1, hsa, hsb, hst'⟩ | ⟨b0, a0, a1, hsa, hsb, hst'⟩
  · -- whole triangle routed to side A
    subst hst'
    have hceq : c = [x, y, z] := by
      have hall : ∀ i ∈ c, (classifyB vs n pp).getD i false = true := by
        intro i hi
        cases hx : (classifyB vs n pp).getD i false
        · exfalso
          have hmemb : i ∈ c.filter (fun i => ! (classifyB vs n pp).getD i false) :=
            List.mem_filter.mpr ⟨hi, by rw [hx]; rfl⟩
          rw [hsb] at hmemb
          exact absurd hmemb (by simp)
        · rfl
      rw [← hsa]
      exact (List.filter_eq_self.mpr hall).symm
    subst hceq
    have hfx := hposT x (by rw [hsa]; simp)
    have hfy := hposT y (by rw [hsa]; simp)
    have hfz := hposT z (by rw [hsa]; simp)
    obtain ⟨⟨⟨eA, hEA⟩, hTA⟩, hIB⟩ := hInv
    refine ⟨⟨⟨⟨eA, hEA⟩, ?_⟩, hIB⟩, ?_, ?_⟩
    · intro t ht
      rcases List.mem_append.mp ht with ht | ht
      · exact hTA t ht
      · obtain rfl := List.mem_singleton.mp ht
        refine ⟨⟨?_, ?_, ?_⟩, ?_, ?_, ?_⟩
        · rw [hEA]; simp only [List.length_append]; omega
        · rw [hEA]; simp only [List.length_append]; omega
        · rw [hEA]; simp only [List.length_append]; omega
        · rw [hEA]
          dsimp only
          rw [posOf_append_left _ _ _ hfx.1]
          exact hfx.2.le
        · rw [hEA]
          dsimp only
          rw [posOf_append_left _ _ _ hfy.1]
          exact hfy.2.le
        · rw [hEA]
          dsimp only
          rw [posOf_append_left _ _ _ hfz.1]
          exact hfz.2.le
    · dsimp only
      rw [areaSum_append_tris, areaSum_singleton]
      have harea : triAreaIdx st.aVtx (x, y, z) = chunkArea vs [x, y, z] := by
        rw [hEA]
        simp only [chunkArea]
        unfold triAreaIdx
        dsimp only
        rw [posOf_append_left _ _ _ hfx.1, posOf_append_left _ _ _ hfy.1,
          posOf_append_left _ _ _ hfz.1]
      rw [harea]
      ring
    · intro hcc hci
      have hccw : isCCW vs (x, y, z) = true := by simpa [chunkCCWB] using hcc
      refine ⟨?_, hci.2⟩
      intro t ht
      rcases List.mem_append.mp ht with ht | ht
      · exact hci.1 t ht
      · obtain rfl := List.mem_singleton.mp ht
        rw [hEA, isCCW_append _ _ _ ⟨hfx.1, hfy.1, hfz.1⟩]
        exact hccw
  · -- whole triangle routed to side B
    subst hst'
    have hceq : c = [x, y, z] := by
      have hall : ∀ i ∈ c, (! (classifyB vs n pp).getD i false) = true := by
        intro i hi
        cases hx : (classifyB vs n pp).getD i false
        · rfl
        · exfalso
          have hmemb : i ∈ c.filter (fun i => (classifyB vs n pp).getD i false) :=
            List.mem_filter.mpr ⟨hi, hx⟩
          rw [hsa] at hmemb
          exact absurd hmemb (by simp)
      rw [← hsb]
      exact (List.filter_eq_self.mpr hall).symm
    subst hceq
    have hfx := hnegT x (by rw [hsb]; simp)
    have hfy := hnegT y (by rw [hsb]; simp)
    have hfz := hnegT z (by rw [hsb]; simp)
    obtain ⟨hIA, ⟨⟨eB, hEB⟩, hTB⟩⟩ := hInv
    refine ⟨⟨hIA, ⟨⟨eB, hEB⟩, ?_⟩⟩, ?_, ?_⟩
    · intro t ht
      rcases List.mem_append.mp ht with ht | ht
      · exact hTB t ht
      · obtain rfl := List.mem_singleton.mp ht
        refine ⟨⟨?_, ?_, ?_⟩, ?_, ?_, ?_⟩
        · rw [hEB]; simp only [List.length_append]; omega
        · rw [hEB]; simp only [List.length_append]; omega
        · rw [hEB]; simp only [List.length_append]; omega
        · rw [hEB]
          dsimp only
          rw [posOf_append_left _ _ _ hfx.1]
          exact hfx.2
        · rw [hEB]
          dsimp only
          rw [posOf_append_left _ _ _ hfy.1]
          exact hfy.2
        · rw [hEB]
          dsimp only
          rw [posOf_append_left _ _ _ hfz.1]
          exact hfz.2
    · dsimp only
      rw [areaSum_append_tris, areaSum_singleton]
      have harea : triAreaIdx st.bVtx (x, y, z) = chunkArea vs [x, y, z] := by
        rw [hEB]
        simp only [chunkArea]
        unfold triAreaIdx
        dsimp only
        rw [posOf_append_left _ _ _ hfx.1, posOf_append_left _ _ _ hfy.1,
          posOf_append_left _ _ _ hfz.1]
      rw [harea]
      ring
    · intro hcc hci
      have hccw : isCCW vs (x, y, z) = true := by simpa [chunkCCWB] using hcc
      refine ⟨hci.1, ?_⟩
      intro t ht
      rcases List.mem_append.mp ht with ht | ht
      · exact hci.2 t ht
      · obtain rfl := List.mem_singleton.mp ht
        rw [hEB, isCCW_append _ _ _ ⟨hfx.1, hfy.1, hfz.1⟩]
        exact hccw
  · -- 1-2 split, minority on side A
    subst hst'
    have hfa := hposT a0 (by rw [hsa]; simp)
    have hfb0 := hnegT b0 (by rw [hsb]; simp)
    have hfb1 := hnegT b1 (by rw [hsb]; simp)
    obtain ⟨hIA, hIB⟩ := hInv
    obtain ⟨eA, hEA⟩ := hIA.1
    obtain ⟨eB, hEB⟩ := hIB.1
    rw [hEA] at hIA
    rw [hEB] at hIB
    have hclip := clip_step n pp vs (fun d => 0 ≤ d) (fun d => d ≤ 0) eA eB
      st.aIdx st.bIdx a0 b0 b1 hfa.1 hfb0.1 hfb1.1
      (Or.inl ⟨hfa.2, hfb0.2, hfb1.2⟩) le_rfl le_rfl hfa.2.le hfb0.2 hfb1.2 hIA hIB
    have hca : chunkArea vs c = triAreaPts (posOf vs a0) (posOf vs b0) (posOf vs b1) :=
      chunkArea_partition vs (fun i => (classifyB vs n pp).getD i false) c a0 b0 b1 hsa hsb
    dsimp only
    rw [hEA, hEB]
    refine ⟨⟨hclip.1, hclip.2.1⟩, ?_, ?_⟩
    · rw [hca]
      have := hclip.2.2.1
      linarith
    · intro _ hci
      obtain ⟨hcA, hcB⟩ := hci
      rw [hEA] at hcA
      rw [hEB] at hcB
      exact ⟨hclip.2.2.2.1 hcA, hclip.2.2.2.2 hcB⟩
  · -- 2-1 split, minority on side B
    subst hst'
    have hfb := hnegT b0 (by rw [hsb]; simp)
    have hfa0 := hposT a0 (by rw [hsa]; simp)
    have hfa1 := hposT a1 (by rw [hsa]; simp)
    obtain ⟨hIA, hIB⟩ := hInv
    obtain ⟨eA, hEA⟩ := hIA.1
    obtain ⟨eB, hEB⟩ := hIB.1
    rw [hEA] at hIA
    rw [hEB] at hIB
    have hclip := clip_step n pp vs (fun d => d ≤ 0) (fun d => 0 ≤ d) eB eA
      st.bIdx st.aIdx b0 a0 a1 hfb.1 hfa0.1 hfa1.1
      (Or.inr ⟨hfb.2, hfa0.2, hfa1.2⟩) le_rfl le_rfl hfb.2 hfa0.2.le hfa1.2.le hIB hIA
    have hnotnot : c.filter (fun i => ! ! (classifyB vs n pp).getD i false) = [a0, a1] :=
      calc c.filter (fun i => ! ! (classifyB vs n pp).getD i false)
          = c.filter (fun i => (classifyB vs n pp).getD i false) :=
            List.filter_congr (fun i _ => Bool.not_not _)
        _ = [a0, a1] := hsa
    have hca : chunkArea vs c = triAreaPts (posOf vs b0) (posOf vs a0) (posOf vs a1) :=
      chunkArea_partition vs (fun i => ! (classifyB vs n pp).getD i false) c b0 a0 a1 hsb hnotnot
    dsimp only
    rw [hEA, hEB]
    refine ⟨⟨hclip.2.1, hclip.1⟩, ?_, ?_⟩
    · rw [hca]
      have := hclip.2.2.1
      linarith
    · intro _ hci
      obtain ⟨hcA, hcB⟩ := hci
      rw [hEA] at hcA
      rw [hEB] at hcB
      exact ⟨hclip.2.2.2.2 hcA, hclip.2.2.2.1 hcB⟩

theorem processChunks_inv (n pp : Q2) (vs : List Q2) :
    ∀ (cs : List (List ℕ)) (st st' : SplitState),
    processChunks n pp vs (classifyB vs n pp) st cs = some st' →
    (∀ c ∈ cs, ∀ i ∈ c, i < vs.length) →
    splitInv n pp vs st →
    splitInv n pp vs st'
    ∧ areaSum st'.aVtx st'.aIdx + areaSum st'.bVtx st'.bIdx
      = areaSum st.aVtx st.aIdx + areaSum st.bVtx st.bIdx + ((cs.map (chunkArea vs)).sum)
    ∧ ((∀ c ∈ cs, chunkCCWB vs c = true) → ccwInv st → ccwInv st')
  | [], st, st', hp, _, hInv => by
    rw [processChunks] at hp
    cases hp
    exact ⟨hInv, by simp, fun _ h => h⟩
  | c :: r, st, st', hp, hr, hInv => by
    rw [processChunks] at hp
    rcases hpc : processChunk n pp vs (classifyB vs n pp) st c with _ | st1 <;> rw [hpc] at hp
    · exact Option.noConfusion hp
    · have h1 := processChunk_inv n pp vs st st1 c (hr c (List.mem_cons_self _ _)) hpc hInv
      have h2 := processChunks_inv n pp vs r st1 st' hp
        (fun c' hc' => hr c' (List.mem_cons_of_mem _ hc')) h1.1
      refine ⟨h2.1, ?_, ?_⟩
      · have e1 := h1.2.1
        have e2 := h2.2.1
        simp only [List.map_cons, List.sum_cons]
        linarith
      · intro hcc hci
        exact h2.2.2 (fun c' h => hcc c' (List.mem_cons_of_mem _ h))
          (h1.2.2 (hcc c (List.mem_cons_self _ _)) hci)

theorem getD_map_of_lt (f : ℕ → Q2) (l : List ℕ) (k : ℕ) (h : k < l.length) (d : Q2) :
    (l.map f).getD k d = f l[k] := by
  rw [List.getD_eq_getElem?_getD, List.getElem?_map, List.getElem?_eq_getElem h]
  rfl

theorem chunk3_mem : ∀ (l c : List ℕ), c ∈ chunk3 l → ∀ i ∈ c, i ∈ l
  | [], c, hc, i, hi => by simp [chunk3] at hc
  | [a], c, hc, i, hi => by
    simp [chunk3] at hc
    subst hc
    simpa using hi
  | [a, b], c, hc, i, hi => by
    simp [chunk3] at hc
    subst hc
    simpa using hi
  | a :: b :: d :: r, c, hc, i, hi => by
    simp only [chunk3, List.mem_cons] at hc
    rcases hc with rfl | hc
    · simp only [List.mem_cons] at hi ⊢
      tauto
    · have := chunk3_mem r c hc i hi
      simp [this]

theorem refTri_self1 (t : Tri) : refTri t t.1 = true := by
  simp [refTri]

theorem refTri_self2 (t : Tri) : refTri t t.2.1 = true := by
  simp [refTri]

theorem refTri_self3 (t : Tri) : refTri t t.2.2 = true := by
  simp [refTri]

theorem removeUnused_lookup (vs : List Q2) (ts : List Tri) (i : ℕ)
    (hlt : i < vs.length) (href : ts.any (fun t => refTri t i) = true) :
    ((List.range vs.length).filter (fun i => ts.any (fun t => refTri t i))).indexOf i
        < ((List.range vs.length).filter (fun i => ts.any (fun t => refTri t i))).length
    ∧ posOf (removeUnused vs ts).1
        (((List.range vs.length).filter (fun i => ts.any (fun t => refTri t i))).indexOf i)
      = posOf vs i := by
  have hmem : i ∈ (List.range vs.length).filter (fun i => ts.any (fun t => refTri t i)) :=
    List.mem_filter.mpr ⟨List.mem_range.mpr hlt, href⟩
  have hidx := List.indexOf_lt_length.mpr hmem
  refine ⟨hidx, ?_⟩
  show ((((List.range vs.length).filter (fun i => ts.any (fun t => refTri t i))).map
      (posOf vs)).getD _ (0, 0)) = posOf vs i
  rw [getD_map_of_lt _ _ _ hidx, List.getElem_indexOf hidx]

theorem removeUnused_spec (vs : List Q2) (ts : List Tri)
    (h : ∀ t ∈ ts, triLt t vs.length) :
    (∀ t' ∈ (removeUnused vs ts).2, triLt t' (removeUnused vs ts).1.length)
    ∧ areaSum (removeUnused vs ts).1 (removeUnused vs ts).2 = areaSum vs ts
    ∧ ((∀ t ∈ ts, isCCW vs t = true) →
        ∀ t' ∈ (removeUnused vs ts).2, isCCW (removeUnused vs ts).1 t' = true)
    ∧ (∀ p ∈ (removeUnused vs ts).1, ∃ i, i < vs.length
        ∧ (ts.any (fun t => refTri t i)) = true ∧ p = posOf vs i) := by
  have key : ∀ t ∈ ts, ∀ k ∈ [t.1, t.2.1, t.2.2],
      ((List.range vs.length).filter (fun i => ts.any (fun t => refTri t i))).indexOf k
          < (removeUnused vs ts).1.length
      ∧ posOf (removeUnused vs ts).1
          (((List.range vs.length).filter (fun i => ts.any (fun t => refTri t i))).indexOf k)
        = posOf vs k := by
    intro t ht k hk
    simp only [List.mem_cons] at hk
    have hklt : k < vs.length := by
      obtain ⟨h1, h2, h3⟩ := h t ht
      rcases hk with rfl | rfl | rfl | hk
      · exact h1
      · exact h2
      · exact h3
      · simp at hk
    have href : ts.any (fun t => refTri t k) = true := by
      refine List.any_eq_true.mpr ⟨t, ht, ?_⟩
      rcases hk with rfl | rfl | rfl | hk
      · exact refTri_self1 t
      · exact refTri_self2 t
      · exact refTri_self3 t
      · simp at hk
    have hlk := removeUnused_lookup vs ts k hklt href
    refine ⟨?_, hlk.2⟩
    have hlenmap : (removeUnused vs ts).1.length
        = ((List.range vs.length).filter (fun i => ts.any (fun t => refTri t i))).length := by
      show (List.map _ _).length = _
      rw [List.length_map]
    rw [hlenmap]
    exact hlk.1
  refine ⟨?_, ?_, ?_, ?_⟩
  · intro t' ht'
    obtain ⟨t, ht, rfl⟩ := List.mem_map.mp ht'
    exact ⟨(key t ht t.1 (by simp)).1, (key t ht t.2.1 (by simp)).1, (key t ht t.2.2 (by simp)).1⟩
  · show areaSum _ (ts.map _) = _
    unfold areaSum
    rw [List.map_map]
    refine congrArg List.sum (List.map_congr_left ?_)
    intro t ht
    show triAreaIdx (removeUnused vs ts).1 _ = triAreaIdx vs t
    unfold triAreaIdx
    dsimp only
    rw [(key t ht t.1 (by simp)).2, (key t ht t.2.1 (by simp)).2, (key t ht t.2.2 (by simp)).2]
  · intro hccw t' ht'
    obtain ⟨t, ht, rfl⟩ := List.mem_map.mp ht'
    have := hccw t ht
    unfold isCCW at this ⊢
    dsimp only
    rw [(key t ht t.1 (by simp)).2, (key t ht t.2.1 (by simp)).2, (key t ht t.2.2 (by simp)).2]
    exact this
  · intro p hp
    obtain ⟨i, hi, rfl⟩ := List.mem_map.mp hp
    obtain ⟨hir, href⟩ := List.mem_filter.mp hi
    exact ⟨i, List.mem_range.mp hir, href, rfl⟩

theorem findIdx?_lt_length_aux {p : Q2 → Bool} : ∀ (l : List Q2) (i j : ℕ),
    List.findIdx? p l i = some j → j < i + l.length
  | [], i, j, h => by simp [List.findIdx?] at h
  | a :: r, i, j, h => by
    rw [List.findIdx?_cons] at h
    split at h
    · cases h
      simp
    · have := findIdx?_lt_length_aux r (i + 1) j h
      simp only [List.length_cons]
      omega

theorem findIdx?_lt_length {p : Q2 → Bool} {l : List Q2} {j : ℕ}
    (h : l.findIdx? p = some j) : j < l.length := by
  have := findIdx?_lt_length_aux l 0 j h
  simpa using this

theorem mergeLoop_src : ∀ (l uniq : List Q2) (nm : List ℕ),
    ∀ p ∈ (mergeLoop l uniq nm).1, p ∈ uniq ∨ p ∈ l
  | [], _, _, _, hp => Or.inl hp
  | v :: r, uniq, nm, p, hp => by
    rw [mergeLoop] at hp
    rcases hf : uniq.findIdx? (fun u => closeB u v) with _ | j <;> rw [hf] at hp
    · rcases mergeLoop_src r (uniq ++ [v]) _ p hp with h | h
      · rcases List.mem_append.mp h with h | h
        · exact Or.inl h
        · right
          simp only [List.mem_singleton] at h
          simp [h]
      · exact Or.inr (List.mem_cons_of_mem _ h)
    · rcases mergeLoop_src r uniq _ p hp with h | h
      · exact Or.inl h
      · exact Or.inr (List.mem_cons_of_mem _ h)

theorem mergeLoop_bounds : ∀ (l uniq : List Q2) (nm : List ℕ),
    (∀ j ∈ nm, j < uniq.length) →
    ((mergeLoop l uniq nm).2.length = nm.length + l.length
     ∧ uniq.length ≤ (mergeLoop l uniq nm).1.length
     ∧ ∀ j ∈ (mergeLoop l uniq nm).2, j < (mergeLoop l uniq nm).1.length)
  | [], uniq, nm, h => ⟨by simp [mergeLoop], le_rfl, fun j hj => h j hj⟩
  | v :: r, uniq, nm, h => by
    rw [mergeLoop]
    rcases hf : uniq.findIdx? (fun u => closeB u v) with _ | j <;> simp only [hf]
    · have hpre : ∀ j ∈ nm ++ [uniq.length], j < (uniq ++ [v]).length := by
        intro j hj
        rcases List.mem_append.mp hj with hj | hj
        · have := h j hj
          simp only [List.length_append, List.length_singleton]
          omega
        · simp only [List.mem_singleton] at hj
          subst hj
          simp
      have ih := mergeLoop_bounds r (uniq ++ [v]) (nm ++ [uniq.length]) hpre
      refine ⟨?_, ?_, ih.2.2⟩
      · rw [ih.1]
        simp only [List.length_append, List.length_singleton, List.length_cons, List.length_nil]
        omega
      · calc uniq.length ≤ (uniq ++ [v]).length := by simp
          _ ≤ _ := ih.2.1
    · have hjlt : j < uniq.length := findIdx?_lt_length hf
      have hpre : ∀ k ∈ nm ++ [j], k < uniq.length := by
        intro k hk
        rcases List.mem_append.mp hk with hk | hk
        · exact h k hk
        · simp only [List.mem_singleton] at hk
          subst hk
          exact hjlt
      have ih := mergeLoop_bounds r uniq (nm ++ [j]) hpre
      refine ⟨?_, ih.2.1, ih.2.2⟩
      rw [ih.1]
      simp only [List.length_append, List.length_singleton, List.length_cons, List.length_nil]
      omega

theorem mergeLoop_id : ∀ (l uniq : List Q2) (nm : List ℕ),
    (∀ v ∈ l, ∀ u ∈ uniq, closeB u v = false) → pairwiseFarB l = true →
    mergeLoop l uniq nm = (uniq ++ l, nm ++ List.range' uniq.length l.length)
  | [], uniq, nm, _, _ => by simp [mergeLoop, List.range']
  | v :: r, uniq, nm, hfar, hpw => by
    rw [mergeLoop]
    have hf : uniq.findIdx? (fun u => closeB u v) = none :=
      List.findIdx?_eq_none_iff.mpr (fun u hu => hfar v (List.mem_cons_self _ _) u hu)
    simp only [hf]
    have hpw' : (∀ u ∈ r, closeB v u = false) ∧ pairwiseFarB r = true := by
      unfold pairwiseFarB at hpw
      simp only [Bool.and_eq_true, List.all_eq_true] at hpw
      exact ⟨fun u hu => by simpa using hpw.1 u hu, hpw.2⟩
    have hfar' : ∀ v' ∈ r, ∀ u ∈ uniq ++ [v], closeB u v' = false := by
      intro v' hv' u hu
      rcases List.mem_append.mp hu with hu | hu
      · exact hfar v' (List.mem_cons_of_mem _ hv') u hu
      · simp only [List.mem_singleton] at hu
        subst hu
        exact hpw'.1 v' hv'
    rw [mergeLoop_id r (uniq ++ [v]) (nm ++ [uniq.length]) hfar' hpw'.2]
    simp only [List.length_append, List.length_singleton, List.length_cons, List.length_nil,
      List.range'_succ, List.append_assoc, List.singleton_append, Nat.zero_add]

theorem mergeVertices_src (vs : List Q2) (ts : List Tri) :
    ∀ p ∈ (mergeVertices vs ts).1, p ∈ vs := by
  intro p hp
  rcases mergeLoop_src vs [] [] p hp with h | h
  · simp at h
  · exact h

theorem mergeVertices_bounds (vs : List Q2) (ts : List Tri)
    (h : ∀ t ∈ ts, triLt t vs.length) :
    ∀ t' ∈ (mergeVertices vs ts).2, triLt t' (mergeVertices vs ts).1.length := by
  have hb := mergeLoop_bounds vs [] [] (by simp)
  intro t' ht'
  have ht'' := List.mem_of_mem_filter ht'
  obtain ⟨t, ht, rfl⟩ := List.mem_map.mp ht''
  have hnm_len : (mergeLoop vs [] []).2.length = vs.length := by simpa using hb.1
  have hentry : ∀ k, k < vs.length →
      (mergeLoop vs [] []).2.getD k 0 < (mergeLoop vs [] []).1.length := by
    intro k hk
    have hklt : k < (mergeLoop vs [] []).2.length := by rw [hnm_len]; exact hk
    have hmem : (mergeLoop vs [] []).2.getD k 0 ∈ (mergeLoop vs [] []).2 := by
      rw [List.getD_eq_getElem?_getD, List.getElem?_eq_getElem hklt]
      exact List.getElem_mem hklt
    exact hb.2.2 _ hmem
  obtain ⟨h1, h2, h3⟩ := h t ht
  exact ⟨hentry t.1 h1, hentry t.2.1 h2, hentry t.2.2 h3⟩

theorem mergeVertices_noWeld (vs : List Q2) (ts : List Tri)
    (hpw : pairwiseFarB vs = true) (h : ∀ t ∈ ts, triLt t vs.length) :
    (mergeVertices vs ts).1 = vs
    ∧ (mergeVertices vs ts).2 = ts.filter (fun t => ! sameTri t) := by
  have hid := mergeLoop_id vs [] [] (by intro v _ u hu; simp at hu) hpw
  have hgetD : ∀ k, k < vs.length → (mergeLoop vs [] []).2.getD k 0 = k := by
    intro k hk
    rw [hid]
    simp only [List.nil_append, List.length_nil]
    have hklt : k < (List.range' 0 vs.length).length := by
      rw [List.length_range']
      exact hk
    rw [List.getD_eq_getElem?_getD, List.getElem?_eq_getElem hklt]
    simp [List.getElem_range']
  constructor
  · show (mergeLoop vs [] []).1 = vs
    rw [hid]
    simp
  · show ((ts.map fun t => ((mergeLoop vs [] []).2.getD t.1 0, (mergeLoop vs [] []).2.getD t.2.1 0,
        (mergeLoop vs [] []).2.getD t.2.2 0)).filter fun t => ! sameTri t)
      = ts.filter (fun t => ! sameTri t)
    have hmapid : (ts.map fun t => ((mergeLoop vs [] []).2.getD t.1 0,
        (mergeLoop vs [] []).2.getD t.2.1 0, (mergeLoop vs [] []).2.getD t.2.2 0)) = ts := by
      have hpt : ∀ t ∈ ts, ((mergeLoop vs [] []).2.getD t.1 0, (mergeLoop vs [] []).2.getD t.2.1 0,
          (mergeLoop vs [] []).2.getD t.2.2 0) = t := by
        intro t ht
        obtain ⟨h1, h2, h3⟩ := h t ht
        rw [hgetD t.1 h1, hgetD t.2.1 h2, hgetD t.2.2 h3]
      calc (ts.map fun t => ((mergeLoop vs [] []).2.getD t.1 0, (mergeLoop vs [] []).2.getD t.2.1 0,
            (mergeLoop vs [] []).2.getD t.2.2 0))
          = ts.map id := List.map_congr_left (fun t ht => hpt t ht)
        _ = ts := List.map_id ts
    rw [hmapid]

theorem areaSum_cons (vs : List Q2) (t : Tri) (ts : List Tri) :
    areaSum vs (t :: ts) = triAreaIdx vs t + areaSum vs ts := by
  simp [areaSum]

theorem triAreaIdx_sameTri (vs : List Q2) (t : Tri) (hs : sameTri t = true) :
    triAreaIdx vs t = 0 := by
  have h1 : t.1 = t.2.1 ∧ t.2.1 = t.2.2 := by simpa [sameTri] using hs
  unfold triAreaIdx
  rw [h1.1, h1.2]
  unfold triAreaPts
  rw [show innerArea (posOf vs t.2.2) (posOf vs t.2.2) (posOf vs t.2.2) = 0 from by
    unfold innerArea; ring]
  simp

theorem areaSum_filter_degenerate (vs : List Q2) : ∀ (ts : List Tri),
    areaSum vs (ts.filter (fun t => ! sameTri t)) = areaSum vs ts
  | [] => rfl
  | t :: r => by
    have ih := areaSum_filter_degenerate vs r
    rw [List.filter_cons]
    cases hs : sameTri t
    · simp only [Bool.not_false, if_true]
      rw [areaSum_cons, areaSum_cons, ih]
    · simp only [Bool.not_true]
      rw [if_neg (by simp)]
      rw [areaSum_cons, triAreaIdx_sameTri vs t hs, ih]
      ring

theorem posOf_map_sub (V : List Q2) (c : Q2) (i : ℕ) (h : i < V.length) :
    posOf (V.map (fun v => q2sub v c)) i = q2sub (posOf V i) c := by
  unfold posOf
  rw [List.getD_eq_getElem?_getD, List.getElem?_map, List.getElem?_eq_getElem h,
    List.getD_eq_getElem?_getD, List.getElem?_eq_getElem h]
  rfl

theorem triAreaPts_sub (a b d c : Q2) :
    triAreaPts (q2sub a c) (q2sub b c) (q2sub d c) = triAreaPts a b d := by
  unfold triAreaPts
  rw [show innerArea (q2sub a c) (q2sub b c) (q2sub d c) = innerArea a b d from by
    unfold innerArea q2sub; dsimp only; ring]

theorem crossZ_sub (a b d c : Q2) :
    crossZ (q2sub a c) (q2sub b c) (q2sub d c) = crossZ a b d := by
  unfold crossZ q2sub
  dsimp only
  ring

theorem areaSum_recenter (V : List Q2) (c : Q2) (ts : List Tri)
    (h : ∀ t ∈ ts, triLt t V.length) :
    areaSum (V.map (fun v => q2sub v c)) ts = areaSum V ts := by
  unfold areaSum
  refine congrArg List.sum (List.map_congr_left ?_)
  intro t ht
  obtain ⟨h1, h2, h3⟩ := h t ht
  unfold triAreaIdx
  rw [posOf_map_sub _ _ _ h1, posOf_map_sub _ _ _ h2, posOf_map_sub _ _ _ h3, triAreaPts_sub]

theorem isCCW_recenter (V : List Q2) (c : Q2) (t : Tri) (h : triLt t V.length) :
    isCCW (V.map (fun v => q2sub v c)) t = isCCW V t := by
  unfold isCCW
  rw [posOf_map_sub _ _ _ h.1, posOf_map_sub _ _ _ h.2.1, posOf_map_sub _ _ _ h.2.2, crossZ_sub]

theorem flat_len : ∀ (ts : List Tri), (ts.flatMap tripleFlat).length = 3 * ts.length
  | [] => rfl
  | t :: r => by
    simp only [List.flatMap_cons, List.length_append, List.length_cons, flat_len r, tripleFlat,
      List.length_nil]
    omega

theorem chunk3_flatten (f : ℕ → ℕ) : ∀ (ts : List Tri),
    chunk3 ((ts.flatMap tripleFlat).map f) = ts.map (fun t => [f t.1, f t.2.1, f t.2.2])
  | [] => rfl
  | t :: r => by
    show chunk3 ((tripleFlat t ++ r.flatMap tripleFlat).map f) = _
    rw [List.map_append]
    show chunk3 (f t.1 :: f t.2.1 :: f t.2.2 :: (r.flatMap tripleFlat).map f) = _
    rw [chunk3, chunk3_flatten f r]
    simp

theorem cleanedMesh_def (vtx : List Q2) (tris : List Tri) :
    cleanedMesh vtx tris
      = (createMesh2d
          ((mergeVertices (removeUnused vtx tris).1 (removeUnused vtx tris).2).1.map
            (fun v => q2sub v
              (verticesCenter
                (mergeVertices (removeUnused vtx tris).1 (removeUnused vtx tris).2).1)))
          (mergeVertices (removeUnused vtx tris).1 (removeUnused vtx tris).2).2,
        verticesCenter (mergeVertices (removeUnused vtx tris).1 (removeUnused vtx tris).2).1) :=
  rfl

theorem finishSide_eq (vtx : List Q2) (tris : List Tri) (mo : MeshQ) (off : Q2)
    (hfin : finishSide vtx tris = some (mo, off)) :
    mo = (cleanedMesh vtx tris).1 ∧ off = (cleanedMesh vtx tris).2
      ∧ validMesh (cleanedMesh vtx tris).1 = true ∧ tris ≠ [] ∧ vtx ≠ [] := by
  unfold finishSide at hfin
  split at hfin
  · exact Option.noConfusion hfin
  · rename_i hempty
    split at hfin
    · rename_i hvalid
      injection hfin with hfin
      refine ⟨(congrArg Prod.fst hfin).symm, (congrArg Prod.snd hfin).symm, hvalid, ?_, ?_⟩
      · intro hnil
        exact hempty (by rw [hnil]; simp)
      · intro hnil
        exact hempty (by rw [hnil]; simp)
    · exact Option.noConfusion hfin

theorem finishSide_none (vtx : List Q2) (tris : List Tri) (hvt : vtx = [] → tris = []) :
    finishSide vtx tris = none ↔ tris = [] ∨ validMesh (cleanedMesh vtx tris).1 = false := by
  unfold finishSide
  split
  · rename_i hempty
    refine ⟨fun _ => ?_, fun _ => rfl⟩
    rcases Bool.or_eq_true_iff.mp hempty with h | h
    · exact Or.inl (hvt (List.isEmpty_iff.mp h))
    · exact Or.inl (List.isEmpty_iff.mp h)
  · rename_i hempty
    split
    · rename_i hvalid
      constructor
      · intro h
        exact Option.noConfusion h
      · intro h
        rcases h with h | h
        · exact absurd (by rw [h]; simp : (vtx.isEmpty || tris.isEmpty) = true) hempty
        · rw [hvalid] at h
          exact Bool.noConfusion h
    · rename_i hvalid
      refine ⟨fun _ => Or.inr ?_, fun _ => rfl⟩
      cases hv : validMesh (cleanedMesh vtx tris).1
      · rfl
      · exact absurd hv hvalid

theorem finishSide_spec (vtx : List Q2) (tris : List Tri) (mo : MeshQ) (off : Q2)
    (hr : ∀ t ∈ tris, triLt t vtx.length)
    (hfin : finishSide vtx tris = some (mo, off)) :
    ((∀ i ∈ mo.idxs, i < mo.verts.length) ∧ mo.idxs.length % 3 = 0)
    ∧ (∀ p ∈ mo.verts, ∃ i, i < vtx.length
        ∧ (tris.any (fun t => refTri t i)) = true ∧ p = q2sub (posOf vtx i) off)
    ∧ (noWeldB vtx tris = true → smallSideB vtx tris = true →
        meshArea mo = areaSum vtx tris)
    ∧ (noWeldB vtx tris = true → smallSideB vtx tris = true →
        (∀ t ∈ tris, isCCW vtx t = true) →
        ∀ c ∈ chunk3 mo.idxs, chunkCCWB mo.verts c = true) := by
  obtain ⟨hmo, hoff, hvalid, htne, hvne⟩ := finishSide_eq vtx tris mo off hfin
  rw [cleanedMesh_def] at hmo hoff
  dsimp only at hmo hoff
  subst hmo
  subst hoff
  have hru := removeUnused_spec vtx tris hr
  have hmb := mergeVertices_bounds (removeUnused vtx tris).1 (removeUnused vtx tris).2 hru.1
  refine ⟨⟨?_, ?_⟩, ?_, ?_, ?_⟩
  · intro i hi
    obtain ⟨a, ha, rfl⟩ := List.mem_map.mp hi
    obtain ⟨t, ht, hat⟩ := List.mem_flatMap.mp ha
    have hl := hmb t ht
    have haV : a < (mergeVertices (removeUnused vtx tris).1 (removeUnused vtx tris).2).1.length := by
      simp only [tripleFlat, List.mem_cons, List.not_mem_nil, or_false] at hat
      rcases hat with rfl | rfl | rfl
      exacts [hl.1, hl.2.1, hl.2.2]
    show a % 65536 < (List.map _ _).length
    rw [List.length_map]
    omega
  · show ((_ : List Tri).flatMap tripleFlat |>.map _).length % 3 = 0
    rw [List.length_map, flat_len]
    omega
  · intro p hp
    obtain ⟨q, hq, rfl⟩ := List.mem_map.mp hp
    have hq1 := mergeVertices_src (removeUnused vtx tris).1 (removeUnused vtx tris).2 q hq
    obtain ⟨i, hi, href, rfl⟩ := hru.2.2.2 q hq1
    exact ⟨i, hi, href, rfl⟩
  · intro hnw hsm
    have hsm' : (mergeVertices (removeUnused vtx tris).1 (removeUnused vtx tris).2).1.length
        ≤ 65536 := of_decide_eq_true hsm
    have hmw := mergeVertices_noWeld (removeUnused vtx tris).1 (removeUnused vtx tris).2 hnw hru.1
    show meshArea (createMesh2d _ _) = _
    unfold meshArea
    calc ((chunk3 (createMesh2d
            ((mergeVertices (removeUnused vtx tris).1 (removeUnused vtx tris).2).1.map
              (fun v => q2sub v (verticesCenter
                (mergeVertices (removeUnused vtx tris).1 (removeUnused vtx tris).2).1)))
            (mergeVertices (removeUnused vtx tris).1 (removeUnused vtx tris).2).2).idxs).map
          (chunkArea (createMesh2d
            ((mergeVertices (removeUnused vtx tris).1 (removeUnused vtx tris).2).1.map
              (fun v => q2sub v (verticesCenter
                (mergeVertices (removeUnused vtx tris).1 (removeUnused vtx tris).2).1)))
            (mergeVertices (removeUnused vtx tris).1 (removeUnused vtx tris).2).2).verts)).sum
        = (((mergeVertices (removeUnused vtx tris).1 (removeUnused vtx tris).2).2.map
            (fun t => [t.1 % 65536, t.2.1 % 65536, t.2.2 % 65536])).map
            (chunkArea
              ((mergeVertices (removeUnused vtx tris).1 (removeUnused vtx tris).2).1.map
                (fun v => q2sub v (verticesCenter
                  (mergeVertices (removeUnused vtx tris).1 (removeUnused vtx tris).2).1))))).sum := by
          rw [show (createMesh2d
              ((mergeVertices (removeUnused vtx tris).1 (removeUnused vtx tris).2).1.map
                (fun v => q2sub v (verticesCenter
                  (mergeVertices (removeUnused vtx tris).1 (removeUnused vtx tris).2).1)))
              (mergeVertices (removeUnused vtx tris).1 (removeUnused vtx tris).2).2).idxs
            = ((mergeVertices (removeUnused vtx tris).1
                (removeUnused vtx tris).2).2.flatMap tripleFlat).map
                (fun a => a % 65536) from rfl, chunk3_flatten]
          rfl
      _ = ((mergeVertices (removeUnused vtx tris).1 (removeUnused vtx tris).2).2.map
            (triAreaIdx
              ((mergeVertices (removeUnused vtx tris).1 (removeUnused vtx tris).2).1.map
                (fun v => q2sub v (verticesCenter
                  (mergeVertices (removeUnused vtx tris).1
                    (removeUnused vtx tris).2).1))))).sum := by
          rw [List.map_map]
          refine congrArg List.sum (List.map_congr_left ?_)
          intro t ht
          have hl := hmb t ht
          have e1 : t.1 % 65536 = t.1 := Nat.mod_eq_of_lt (lt_of_lt_of_le hl.1 hsm')
          have e2 : t.2.1 % 65536 = t.2.1 := Nat.mod_eq_of_lt (lt_of_lt_of_le hl.2.1 hsm')
          have e3 : t.2.2 % 65536 = t.2.2 := Nat.mod_eq_of_lt (lt_of_lt_of_le hl.2.2 hsm')
          show chunkArea _ [t.1 % 65536, t.2.1 % 65536, t.2.2 % 65536] = _
          rw [e1, e2, e3]
          rfl
      _ = areaSum
            ((mergeVertices (removeUnused vtx tris).1 (removeUnused vtx tris).2).1.map
              (fun v => q2sub v (verticesCenter
                (mergeVertices (removeUnused vtx tris).1 (removeUnused vtx tris).2).1)))
            (mergeVertices (removeUnused vtx tris).1 (removeUnused vtx tris).2).2 := rfl
      _ = areaSum (mergeVertices (removeUnused vtx tris).1 (removeUnused vtx tris).2).1
            (mergeVertices (removeUnused vtx tris).1 (removeUnused vtx tris).2).2 :=
          areaSum_recenter _ _ _ hmb
      _ = areaSum vtx tris := by
          rw [hmw.1, hmw.2, areaSum_filter_degenerate]
          exact hru.2.1
  · intro hnw hsm hcc c hcmem
    have hsm' : (mergeVertices (removeUnused vtx tris).1 (removeUnused vtx tris).2).1.length
        ≤ 65536 := of_decide_eq_true hsm
    have hmw := mergeVertices_noWeld (removeUnused vtx tris).1 (removeUnused vtx tris).2 hnw hru.1
    rw [show (createMesh2d
        ((mergeVertices (removeUnused vtx tris).1 (removeUnused vtx tris).2).1.map
          (fun v => q2sub v (verticesCenter
            (mergeVertices (removeUnused vtx tris).1 (removeUnused vtx tris).2).1)))
        (mergeVertices (removeUnused vtx tris).1 (removeUnused vtx tris).2).2).idxs
      = ((mergeVertices (removeUnused vtx tris).1
          (removeUnused vtx tris).2).2.flatMap tripleFlat).map
          (fun a => a % 65536) from rfl, chunk3_flatten] at hcmem
    obtain ⟨t, ht, rfl⟩ := List.mem_map.mp hcmem
    have hl := hmb t ht
    have e1 : t.1 % 65536 = t.1 := Nat.mod_eq_of_lt (lt_of_lt_of_le hl.1 hsm')
    have e2 : t.2.1 % 65536 = t.2.1 := Nat.mod_eq_of_lt (lt_of_lt_of_le hl.2.1 hsm')
    have e3 : t.2.2 % 65536 = t.2.2 := Nat.mod_eq_of_lt (lt_of_lt_of_le hl.2.2 hsm')
    show chunkCCWB _ [t.1 % 65536, t.2.1 % 65536, t.2.2 % 65536] = true
    rw [e1, e2, e3]
    show isCCW ((mergeVertices (removeUnused vtx tris).1 (removeUnused vtx tris).2).1.map
        (fun v => q2sub v (verticesCenter
          (mergeVertices (removeUnused vtx tris).1 (removeUnused vtx tris).2).1)))
      (t.1, t.2.1, t.2.2) = true
    have hccT1 : ∀ t' ∈ (removeUnused vtx tris).2, isCCW (removeUnused vtx tris).1 t' = true :=
      hru.2.2.1 hcc
    have htT1 : t ∈ (removeUnused vtx tris).2 := by
      have := ht
      rw [hmw.2] at this
      exact List.mem_of_mem_filter this
    have hres := isCCW_recenter (mergeVertices (removeUnused vtx tris).1
        (removeUnused vtx tris).2).1
      (verticesCenter (mergeVertices (removeUnused vtx tris).1 (removeUnused vtx tris).2).1)
      t hl
    rw [hres]
    rw [hmw.1]
    exact hccT1 t htT1

theorem sideBuffers_spec (m : MeshQ) (dir pp : Q2) (st : SplitState)
    (hwf : ∀ i ∈ m.idxs, i < m.verts.length)
    (hst : sideBuffers m dir pp = some st) :
    splitInv (perpQ dir) pp m.verts st
    ∧ areaSum st.aVtx st.aIdx + areaSum st.bVtx st.bIdx = meshArea m
    ∧ ((∀ c ∈ chunk3 m.idxs, chunkCCWB m.verts c = true) → ccwInv st) := by
  unfold sideBuffers at hst
  have hinv0 : splitInv (perpQ dir) pp m.verts ⟨[], [], m.verts, m.verts⟩ :=
    ⟨⟨⟨[], by simp⟩, by intro t ht; simp at ht⟩, ⟨⟨[], by simp⟩, by intro t ht; simp at ht⟩⟩
  have h := processChunks_inv (perpQ dir) pp m.verts (chunk3 m.idxs) _ st hst
    (fun c hc i hi => hwf i (chunk3_mem m.idxs c hc i hi)) hinv0
  refine ⟨h.1, ?_,
    fun hcc => h.2.2 hcc ⟨by intro t ht; simp at ht, by intro t ht; simp at ht⟩⟩
  have harea := h.2.1
  simpa [areaSum, meshArea] using harea

theorem q2add_q2sub (q c : Q2) : q2add (q2sub q c) c = q := by
  cases q
  cases c
  simp [q2add, q2sub]

theorem splitMesh_eq_of (m : MeshQ) (dir pp : Q2) (st : SplitState)
    (hst : sideBuffers m dir pp = some st) :
    splitMesh m dir pp
      = some (finishSide st.aVtx st.aIdx, finishSide st.bVtx st.bIdx) := by
  unfold splitMesh
  rw [hst]
  rfl

theorem triLt_of_splitInv (n pp : Q2) (vs : List Q2) (st : SplitState)
    (h : splitInv n pp vs st) :
    (∀ t ∈ st.aIdx, triLt t st.aVtx.length) ∧ ∀ t ∈ st.bIdx, triLt t st.bVtx.length :=
  ⟨fun t ht => (h.1.2 t ht).1, fun t ht => (h.2.2 t ht).1⟩

theorem finishSide_mod3 (vtx : List Q2) (tris : List Tri) (mo : MeshQ) (off : Q2)
    (hfin : finishSide vtx tris = some (mo, off)) : mo.idxs.length % 3 = 0 := by
  obtain ⟨hmo, -, -, -, -⟩ := finishSide_eq vtx tris mo off hfin
  subst hmo
  show (((mergeVertices (removeUnused vtx tris).1
      (removeUnused vtx tris).2).2.flatMap tripleFlat).map (fun a => a % 65536)).length % 3 = 0
  rw [List.length_map, flat_len]
  omega

theorem splitMesh_sides_mod3 (m : MeshQ) (dir pp : Q2) (sa sb : Option (MeshQ × Q2))
    (hs : splitMesh m dir pp = some (sa, sb)) :
    (∀ mo off, sa = some (mo, off) → mo.idxs.length % 3 = 0)
    ∧ ∀ mo off, sb = some (mo, off) → mo.idxs.length % 3 = 0 := by
  unfold splitMesh at hs
  cases hsb : sideBuffers m dir pp with
  | none => rw [hsb] at hs; exact Option.noConfusion hs
  | some st =>
    rw [hsb] at hs
    have hs' : some (finishSide st.aVtx st.aIdx, finishSide st.bVtx st.bIdx)
        = some (sa, sb) := hs
    injection hs' with hs
    have h1 := congrArg Prod.fst hs
    have h2 := congrArg Prod.snd hs
    dsimp only at h1 h2
    subst h1
    subst h2
    exact ⟨fun mo off h => finishSide_mod3 _ _ _ _ h,
      fun mo off h => finishSide_mod3 _ _ _ _ h⟩

theorem splitMesh_some3 (m : MeshQ) (dir pp : Q2) (h3 : m.idxs.length % 3 = 0) :
    (splitMesh m dir pp).isSome = true := by
  have h : (sideBuffers m dir pp).isSome = true :=
    processChunks_some _ _ _ _ (chunk3 m.idxs) _ (chunk3_full m.idxs h3)
  obtain ⟨st, hst⟩ := Option.isSome_iff_exists.mp h
  rw [splitMesh_eq_of m dir pp st hst]
  rfl

theorem muQueue_append (l1 l2 : List (MeshQ × Q2 × ℕ)) :
    muQueue (l1 ++ l2) = muQueue l1 + muQueue l2 := by
  simp [muQueue]

theorem muQueue_cons (x : MeshQ × Q2 × ℕ) (l : List (MeshQ × Q2 × ℕ)) :
    muQueue (x :: l) = muItem x.2.2 + muQueue l := by
  simp [muQueue]

theorem muQueue_pushHalf (off : Q2) (d : ℕ) (r : Option (MeshQ × Q2)) :
    muQueue (pushHalf off d r) ≤ muItem (d + 1) := by
  cases r with
  | none => simp [pushHalf, muQueue]
  | some p => simp [pushHalf, muQueue]

theorem muItem_pos (d : ℕ) : 1 ≤ muItem d :=
  Nat.one_le_pow _ _ (by norm_num)

theorem muItem_split (d : ℕ) (h : d ≤ 3) :
    muItem (d + 1) + muItem (d + 1) + 1 ≤ muItem d := by
  unfold muItem
  interval_cases d <;> decide

theorem pushHalf_mem (off : Q2) (d : ℕ) (r : Option (MeshQ × Q2))
    (x : MeshQ × Q2 × ℕ) (hx : x ∈ pushHalf off d r) :
    ∃ ho, r = some (x.1, ho) ∧ x.2.2 = d + 1 := by
  cases r with
  | none => simp [pushHalf] at hx
  | some p =>
    simp only [pushHalf, List.mem_singleton] at hx
    subst hx
    exact ⟨p.2, rfl, rfl⟩

theorem shardDone_iff (maxA : ℚ) (mm : MeshQ) (d : ℕ) :
    shardDone maxA mm d = true ↔ 3 < d ∨ meshArea mm ≤ maxA := by
  simp [shardDone]

theorem shatterFuel_term (maxA : ℚ) : ∀ (fuel : ℕ) (q acc : List (MeshQ × Q2 × ℕ)),
    (∀ x ∈ q, x.1.idxs.length % 3 = 0) → muQueue q < fuel →
    ∃ out, shatterFuel maxA fuel q acc = some out
      ∧ ∀ f ∈ out, f ∈ acc ∨ shardDone maxA f.1 f.2.2 = true := by
  intro fuel
  induction fuel with
  | zero => intro q acc h3 hlt; omega
  | succ n ih =>
    intro q acc h3 hlt
    cases q with
    | nil => exact ⟨acc, rfl, fun f hf => Or.inl hf⟩
    | cons hd rest =>
      obtain ⟨mm, off, d⟩ := hd
      rw [muQueue_cons] at hlt
      dsimp only at hlt
      cases hdone : shardDone maxA mm d with
      | true =>
        have hmu := muItem_pos d
        obtain ⟨out, hout, hprop⟩ := ih rest ((mm, off, d) :: acc)
          (fun x hx => h3 x (List.mem_cons_of_mem _ hx)) (by omega)
        refine ⟨out, ?_, ?_⟩
        · show shatterFuel maxA (n + 1) ((mm, off, d) :: rest) acc = some out
          rw [shatterFuel, if_pos hdone]
          exact hout
        · intro f hf
          rcases hprop f hf with hin | hsd
          · rcases List.mem_cons.mp hin with heq | hin'
            · subst heq; exact Or.inr hdone
            · exact Or.inl hin'
          · exact Or.inr hsd
      | false =>
        have hd3 : d ≤ 3 := by
          by_contra hgt
          have : shardDone maxA mm d = true := by
            simp only [shardDone, Bool.or_eq_true, decide_eq_true_eq]
            omega
          rw [hdone] at this
          exact Bool.noConfusion this
        have hm3 : mm.idxs.length % 3 = 0 := h3 (mm, off, d) (List.mem_cons_self _ _)
        obtain ⟨res, hres⟩ := Option.isSome_iff_exists.mp
          (splitMesh_some3 mm (perpQ (meshLongestAxis mm)) (0, 0) hm3)
        obtain ⟨sa, sb⟩ := res
        have hsides := splitMesh_sides_mod3 mm (perpQ (meshLongestAxis mm)) (0, 0) sa sb hres
        have h3' : ∀ x ∈ pushHalf off d sb ++ pushHalf off d sa ++ rest,
            x.1.idxs.length % 3 = 0 := by
          intro x hx
          rcases List.mem_append.mp hx with hx' | hxr
          · rcases List.mem_append.mp hx' with hxb | hxa
            · obtain ⟨ho, hr, -⟩ := pushHalf_mem off d sb x hxb
              exact hsides.2 x.1 ho hr
            · obtain ⟨ho, hr, -⟩ := pushHalf_mem off d sa x hxa
              exact hsides.1 x.1 ho hr
          · exact h3 x (List.mem_cons_of_mem _ hxr)
        have hmu' : muQueue (pushHalf off d sb ++ pushHalf off d sa ++ rest) < n := by
          have hb := muQueue_pushHalf off d sb
          have ha := muQueue_pushHalf off d sa
          have hsplit := muItem_split d hd3
          rw [muQueue_append, muQueue_append]
          omega
        obtain ⟨out, hout, hprop⟩ := ih _ acc h3' hmu'
        refine ⟨out, ?_, hprop⟩
        show shatterFuel maxA (n + 1) ((mm, off, d) :: rest) acc = some out
        rw [shatterFuel, if_neg (by rw [hdone]; exact Bool.false_ne_true), hres]
        exact hout

/-- C6, counterexample: on vertices `[(0,0), (1/5,0), (5,5)]` the second
vertex is welded into the first, the triangle `(0,1,2)` is remapped to
`(0,0,1)` — only two distinct indices — yet it is kept, not dropped, and its
first two indices are equal. -/
theorem spec_C6_cex :
    mergeVertices [((0 : ℚ), (0 : ℚ)), (1/5, 0), (5, 5)] [(0, 1, 2)]
      = ([(0, 0), (5, 5)], [(0, 0, 1)])
    ∧ ((0, 0, 1) : Tri).1 = ((0, 0, 1) : Tri).2.1 :=
  ⟨by with_unfolding_all rfl, rfl⟩

/-- C6 (amended): after the welding step no two vertices of the resulting
vertex list lie within the merge tolerance of each other, and every triangle
whose three indices collapse to a single vertex (all three remapped indices
equal, the only case `merge_vertices` tests) is dropped, so every remaining
triangle has at least two distinct indices; a triangle collapsing to exactly
two distinct indices is kept. -/
theorem spec_C6 (vs : List Q2) (ts : List Tri) :
    List.Pairwise (fun a b => closeB a b = false) (mergeVertices vs ts).1
    ∧ ∀ t ∈ (mergeVertices vs ts).2, sameTri t = false := by
  constructor
  · exact mergeLoop_pairwise vs [] [] List.Pairwise.nil
  · intro t ht
    unfold mergeVertices at ht
    have := List.of_mem_filter ht
    simpa using this

/-- C7: splitting the 2x2 origin-centred square with direction `(0,1)`
through `(0,0)` returns `Some` for both sides, each side has area 2, side A's
recenter offset is `(-1/2, 0)` and side B's is `(1/2, 0)`. -/
theorem spec_C7 :
    splitMesh sqMesh (0, 1) (0, 0)
      = some (some (sqSplitA, (-1/2, 0)), some (sqSplitB, (1/2, 0)))
    ∧ meshArea sqSplitA = 2 ∧ meshArea sqSplitB = 2 :=
  ⟨by with_unfolding_all rfl, by with_unfolding_all rfl, by with_unfolding_all rfl⟩

/-- C8: when the flat index list has length divisible by 3, every chunk
classifies as 3-0, 0-3, 1-2 or 2-1, so the classification loop never reaches
the `panic!("Invalid split configuration")` arm (modelled by `none`). -/
theorem spec_C8 (m : MeshQ) (dir pp : Q2) (h3 : m.idxs.length % 3 = 0) :
    (sideBuffers m dir pp).isSome = true :=
  processChunks_some _ _ _ _ (chunk3 m.idxs) _ (chunk3_full m.idxs h3)

/-- Witness for C8 at the concrete square mesh. -/
theorem spec_C8_witness : (sideBuffers sqMesh (0, 1) (0, 0)).isSome = true :=
  spec_C8 sqMesh (0, 1) (0, 0) rfl

/-- C9, counterexample: the candidate pool of `trim_mesh` is
`v[0].abs() > 0 && v[1].abs() > 0`, not "not at the origin": the vertex
`(5,0)` is distinct from the origin yet excluded from the pool. -/
theorem spec_C9_cex :
    candidatePool [((5 : ℚ), (0 : ℚ))] = [] ∧ ((5 : ℚ), (0 : ℚ)) ≠ ((0 : ℚ), (0 : ℚ)) :=
  ⟨by with_unfolding_all rfl, by with_unfolding_all exact fun h => absurd (congrArg Prod.fst h) (by norm_num)⟩

/-- C9 (amended): `trim_mesh` performs at most 5 cut iterations and returns
at most 5 shards for any outcome of the sampling (any candidate list of
length at most 5, as produced by `choose_multiple(_, 5)`), and the candidate
pool is exactly the vertices with both coordinates nonzero (not the vertices
distinct from the origin). -/
theorem spec_C9 (m : MeshQ) (sel : List (Q2 × Q2)) (main : MeshQ) (off : Q2)
    (shards : List (MeshQ × Q2)) (k : ℕ)
    (hsel : sel.length ≤ 5)
    (hpool : ∀ x ∈ sel, x.1 ∈ candidatePool m.verts)
    (hrun : trimMeshWith m sel = some (main, off, shards, k)) :
    k ≤ 5 ∧ shards.length ≤ 5
      ∧ candidatePool m.verts
        = m.verts.filter (fun v => decide (0 < |v.1|) && decide (0 < |v.2|)) := by
  have h := trimGo_spec sel m (0, 0) [] 0 (main, off, shards, k) hrun
  simp only [List.length_nil, Nat.zero_add] at h
  exact ⟨by omega, by omega, rfl⟩

/-- Witness for C9: one real trim cut on the square, producing one shard. -/
theorem spec_C9_witness :
    1 ≤ 5 ∧ ([(trimShardW, ((1 : ℚ)/2, (1 : ℚ)/2))] : List (MeshQ × Q2)).length ≤ 5
      ∧ candidatePool sqMesh.verts
        = sqMesh.verts.filter (fun v => decide (0 < |v.1|) && decide (0 < |v.2|)) :=
  spec_C9 sqMesh [((1, 1), (1/2, 1/2))] trimMainW (0, 0) [(trimShardW, (1/2, 1/2))] 1
    (by simp)
    (by
      intro x hx
      simp only [List.mem_singleton] at hx
      subst hx
      exact of_decide_eq_true (by with_unfolding_all rfl))
    (by with_unfolding_all rfl)

/-- C10: `create_mesh_2d` stores each triangle index as `u16` via an
unchecked cast (reduction mod 2^16); the stored index list is the computed
one exactly when all indices fit (in particular when the side has at most
65536 vertices and indices are in range), and any index at least 2^16 makes
the stored list differ silently (the function is total and reports nothing). -/
theorem spec_C10 (vs : List Q2) (ts : List Tri) :
    (createMesh2d vs ts).verts = vs
    ∧ (createMesh2d vs ts).idxs = (ts.flatMap tripleFlat).map (fun a => a % 65536)
    ∧ ((∀ a ∈ ts.flatMap tripleFlat, a < vs.length) → vs.length ≤ 65536 →
        (createMesh2d vs ts).idxs = ts.flatMap tripleFlat)
    ∧ (∀ a ∈ ts.flatMap tripleFlat, 65536 ≤ a →
        (createMesh2d vs ts).idxs ≠ ts.flatMap tripleFlat) := by
  refine ⟨rfl, rfl, ?_, ?_⟩
  · intro hin hsz
    calc (createMesh2d vs ts).idxs
        = (ts.flatMap tripleFlat).map (fun a => a % 65536) := rfl
      _ = (ts.flatMap tripleFlat).map id :=
        List.map_congr_left (fun a ha => Nat.mod_eq_of_lt (lt_of_lt_of_le (hin a ha) hsz))
      _ = ts.flatMap tripleFlat := List.map_id _
  · intro a ha hge heq
    have hfix : a % 65536 = a := map_eq_self_of (fun a => a % 65536) (ts.flatMap tripleFlat) heq a ha
    have hlt : a % 65536 < 65536 := Nat.mod_lt _ (by omega)
    omega

/-- Witness for C10: small in-range indices are stored unchanged. -/
theorem spec_C10_witness :
    (createMesh2d [((0 : ℚ), (0 : ℚ))] [(0, 0, 0)]).idxs = [0, 0, 0] :=
  (spec_C10 _ _).2.2.1 (by decide) (by decide)

/-- C1, counterexample: on `cex1` both sides are `Some`, but side B's two
close vertices are welded (tolerance 1/2), collapsing its triangle to zero
area: the sides' areas sum to 1/2 while the input mesh has area 13/10. -/
theorem spec_C1_cex :
    splitMesh cex1 (0, 1) (-1/2, 0) = some (some (cex1A, (-3/2, 1/2)), some (cex1B, (2, 0)))
    ∧ meshArea cex1A + meshArea cex1B = 1/2
    ∧ meshArea cex1 = 13/10 :=
  ⟨by with_unfolding_all rfl, by with_unfolding_all rfl, by with_unfolding_all rfl⟩

/-- C2, counterexample: the clockwise input triangle `cex2` lies entirely on
side A of the cut, is copied through unchanged, and the returned mesh's only
triangle fails the CCW test. -/
theorem spec_C2_cex :
    splitMesh cex2 (0, 1) (10, 0) = some (some (cex2A, (5/2, 5/2)), none)
    ∧ chunk3 cex2A.idxs = [[0, 1, 2]]
    ∧ isCCW cex2A.verts (0, 1, 2) = false :=
  ⟨by with_unfolding_all rfl, by with_unfolding_all rfl, by with_unfolding_all rfl⟩

/-- C5: every vertex of the returned side-A mesh, translated back by its
recenter offset into the original frame, has non-negative signed distance to
the cutting line; every vertex of the returned side-B mesh so translated has
non-positive signed distance; and a vertex's side is decided by whether that
distance is `> 0` (side A) or `<= 0` (side B). -/
theorem spec_C5 (m : MeshQ) (dir pp : Q2) (st : SplitState)
    (hwf : ∀ i ∈ m.idxs, i < m.verts.length)
    (hst : sideBuffers m dir pp = some st) :
    (∀ mo off, finishSide st.aVtx st.aIdx = some (mo, off) →
        ∀ p ∈ mo.verts, 0 ≤ distToPlane (q2add p off) (perpQ dir) pp)
    ∧ (∀ mo off, finishSide st.bVtx st.bIdx = some (mo, off) →
        ∀ p ∈ mo.verts, distToPlane (q2add p off) (perpQ dir) pp ≤ 0)
    ∧ classifyB m.verts (perpQ dir) pp
        = m.verts.map (fun v => decide (0 < distToPlane v (perpQ dir) pp)) := by
  obtain ⟨hinv, -, -⟩ := sideBuffers_spec m dir pp st hwf hst
  refine ⟨?_, ?_, rfl⟩
  · intro mo off hfin p hp
    obtain ⟨-, hsrc, -, -⟩ :=
      finishSide_spec st.aVtx st.aIdx mo off (triLt_of_splitInv _ _ _ _ hinv).1 hfin
    obtain ⟨i, hi, href, rfl⟩ := hsrc p hp
    rw [q2add_q2sub]
    obtain ⟨t, ht, hrt⟩ := List.any_eq_true.mp href
    have hP := hinv.1.2 t ht
    simp only [refTri, Bool.or_eq_true, beq_iff_eq] at hrt
    rcases hrt with (h | h) | h
    · rw [← h]; exact hP.2.1
    · rw [← h]; exact hP.2.2.1
    · rw [← h]; exact hP.2.2.2
  · intro mo off hfin p hp
    obtain ⟨-, hsrc, -, -⟩ :=
      finishSide_spec st.bVtx st.bIdx mo off (triLt_of_splitInv _ _ _ _ hinv).2 hfin
    obtain ⟨i, hi, href, rfl⟩ := hsrc p hp
    rw [q2add_q2sub]
    obtain ⟨t, ht, hrt⟩ := List.any_eq_true.mp href
    have hP := hinv.2.2 t ht
    simp only [refTri, Bool.or_eq_true, beq_iff_eq] at hrt
    rcases hrt with (h | h) | h
    · rw [← h]; exact hP.2.1
    · rw [← h]; exact hP.2.2.1
    · rw [← h]; exact hP.2.2.2

/-- Witness for C5 at the large triangle `bigTri` cut at `x = 4`. -/
theorem spec_C5_witness :
    (∀ mo off, finishSide bigStW.aVtx bigStW.aIdx = some (mo, off) →
        ∀ p ∈ mo.verts, 0 ≤ distToPlane (q2add p off) (perpQ (0, 1)) ((4 : ℚ), (0 : ℚ)))
    ∧ (∀ mo off, finishSide bigStW.bVtx bigStW.bIdx = some (mo, off) →
        ∀ p ∈ mo.verts, distToPlane (q2add p off) (perpQ (0, 1)) ((4 : ℚ), (0 : ℚ)) ≤ 0)
    ∧ classifyB bigTri.verts (perpQ (0, 1)) ((4 : ℚ), (0 : ℚ))
        = bigTri.verts.map
            (fun v => decide (0 < distToPlane v (perpQ (0, 1)) ((4 : ℚ), (0 : ℚ)))) :=
  spec_C5 bigTri (0, 1) (4, 0) bigStW (by decide) (by with_unfolding_all rfl)

/-- C3: a side of `split_mesh` is `None` exactly when its raw triangle buffer
is empty or the cleaned mesh fails `valid_mesh`; in particular, cutting the
square along a line through `(5,5)` yields `None` for side B and, for side A,
the original square (offset `(0,0)`) with area 4. -/
theorem spec_C3 (m : MeshQ) (dir pp : Q2) (st : SplitState)
    (hwf : ∀ i ∈ m.idxs, i < m.verts.length)
    (hst : sideBuffers m dir pp = some st) :
    splitMesh m dir pp = some (finishSide st.aVtx st.aIdx, finishSide st.bVtx st.bIdx)
    ∧ (finishSide st.aVtx st.aIdx = none
        ↔ st.aIdx = [] ∨ validMesh (cleanedMesh st.aVtx st.aIdx).1 = false)
    ∧ (finishSide st.bVtx st.bIdx = none
        ↔ st.bIdx = [] ∨ validMesh (cleanedMesh st.bVtx st.bIdx).1 = false)
    ∧ splitMesh sqMesh (0, 1) (5, 5) = some (some (sqMesh, (0, 0)), none)
    ∧ meshArea sqMesh = 4 := by
  obtain ⟨hinv, -, -⟩ := sideBuffers_spec m dir pp st hwf hst
  have hvtA : st.aVtx = [] → st.aIdx = [] := by
    intro hnil
    refine List.eq_nil_iff_forall_not_mem.mpr (fun t ht => ?_)
    have h := (hinv.1.2 t ht).1.1
    rw [hnil] at h
    simp at h
  have hvtB : st.bVtx = [] → st.bIdx = [] := by
    intro hnil
    refine List.eq_nil_iff_forall_not_mem.mpr (fun t ht => ?_)
    have h := (hinv.2.2 t ht).1.1
    rw [hnil] at h
    simp at h
  exact ⟨splitMesh_eq_of m dir pp st hst,
    finishSide_none st.aVtx st.aIdx hvtA,
    finishSide_none st.bVtx st.bIdx hvtB,
    by with_unfolding_all rfl,
    by with_unfolding_all rfl⟩

/-- Witness for C3 at the square and the off-plane cut through `(5,5)`. -/
theorem spec_C3_witness :
    splitMesh sqMesh (0, 1) (5, 5)
      = some (finishSide sqOffW.aVtx sqOffW.aIdx, finishSide sqOffW.bVtx sqOffW.bIdx)
    ∧ (finishSide sqOffW.aVtx sqOffW.aIdx = none
        ↔ sqOffW.aIdx = [] ∨ validMesh (cleanedMesh sqOffW.aVtx sqOffW.aIdx).1 = false)
    ∧ (finishSide sqOffW.bVtx sqOffW.bIdx = none
        ↔ sqOffW.bIdx = [] ∨ validMesh (cleanedMesh sqOffW.bVtx sqOffW.bIdx).1 = false)
    ∧ splitMesh sqMesh (0, 1) (5, 5) = some (some (sqMesh, (0, 0)), none)
    ∧ meshArea sqMesh = 4 :=
  spec_C3 sqMesh (0, 1) (5, 5) sqOffW (by decide) (by with_unfolding_all rfl)

/-- C1 (amended): area conservation holds under the side conditions the code
actually needs — when both sides are `Some`, the welding step merges no
vertices on either side (the surviving vertices are pairwise farther apart
than the tolerance), and each side's vertex count fits `u16` index space,
the two returned areas sum exactly to the input mesh's area. -/
theorem spec_C1 (m : MeshQ) (dir pp : Q2) (st : SplitState) (ma mb : MeshQ) (oa ob : Q2)
    (hwf : ∀ i ∈ m.idxs, i < m.verts.length)
    (hst : sideBuffers m dir pp = some st)
    (ha : finishSide st.aVtx st.aIdx = some (ma, oa))
    (hb : finishSide st.bVtx st.bIdx = some (mb, ob))
    (hnwa : noWeldB st.aVtx st.aIdx = true) (hnwb : noWeldB st.bVtx st.bIdx = true)
    (hsa : smallSideB st.aVtx st.aIdx = true) (hsb : smallSideB st.bVtx st.bIdx = true) :
    splitMesh m dir pp = some (some (ma, oa), some (mb, ob))
    ∧ meshArea ma + meshArea mb = meshArea m := by
  obtain ⟨hinv, harea, -⟩ := sideBuffers_spec m dir pp st hwf hst
  obtain ⟨-, -, hA, -⟩ :=
    finishSide_spec st.aVtx st.aIdx ma oa (triLt_of_splitInv _ _ _ _ hinv).1 ha
  obtain ⟨-, -, hB, -⟩ :=
    finishSide_spec st.bVtx st.bIdx mb ob (triLt_of_splitInv _ _ _ _ hinv).2 hb
  refine ⟨?_, ?_⟩
  · rw [splitMesh_eq_of m dir pp st hst, ha, hb]
  · rw [hA hnwa hsa, hB hnwb hsb]
    exact harea

/-- Witness for C1: the `bigTri` cut welds nothing and conserves area
(24 + 8 = 32). -/
theorem spec_C1_witness :
    splitMesh bigTri (0, 1) (4, 0) = some (some (bigAW, (2, 4)), some (bigBW, (6, 2)))
    ∧ meshArea bigAW + meshArea bigBW = meshArea bigTri :=
  spec_C1 bigTri (0, 1) (4, 0) bigStW bigAW bigBW (2, 4) (6, 2)
    (by decide)
    (by with_unfolding_all rfl)
    (by with_unfolding_all rfl)
    (by with_unfolding_all rfl)
    (by with_unfolding_all rfl)
    (by with_unfolding_all rfl)
    (by with_unfolding_all rfl)
    (by with_unfolding_all rfl)

/-- C2 (amended, `split_mesh` scope): if every triangle of the input mesh
passes the CCW test, then — on each side that is returned, provided the
welding step merges nothing and the side fits `u16` index space — every
triangle of the returned mesh passes the CCW test.  (Without the all-CCW
hypothesis on the input the claim fails: triangles copied whole keep the
input winding, see `spec_C2_cex`.) -/
theorem spec_C2 (m : MeshQ) (dir pp : Q2) (st : SplitState)
    (hwf : ∀ i ∈ m.idxs, i < m.verts.length)
    (hst : sideBuffers m dir pp = some st)
    (hcc : ∀ c ∈ chunk3 m.idxs, chunkCCWB m.verts c = true) :
    (∀ mo off, finishSide st.aVtx st.aIdx = some (mo, off) →
        noWeldB st.aVtx st.aIdx = true → smallSideB st.aVtx st.aIdx = true →
        ∀ c ∈ chunk3 mo.idxs, chunkCCWB mo.verts c = true)
    ∧ (∀ mo off, finishSide st.bVtx st.bIdx = some (mo, off) →
        noWeldB st.bVtx st.bIdx = true → smallSideB st.bVtx st.bIdx = true →
        ∀ c ∈ chunk3 mo.idxs, chunkCCWB mo.verts c = true) := by
  obtain ⟨hinv, -, hccw⟩ := sideBuffers_spec m dir pp st hwf hst
  have hci := hccw hcc
  constructor
  · intro mo off hfin hnw hsm
    obtain ⟨-, -, -, hC⟩ :=
      finishSide_spec st.aVtx st.aIdx mo off (triLt_of_splitInv _ _ _ _ hinv).1 hfin
    exact hC hnw hsm hci.1
  · intro mo off hfin hnw hsm
    obtain ⟨-, -, -, hC⟩ :=
      finishSide_spec st.bVtx st.bIdx mo off (triLt_of_splitInv _ _ _ _ hinv).2 hfin
    exact hC hnw hsm hci.2

/-- Witness for C2 at the all-CCW triangle `bigTri`. -/
theorem spec_C2_witness :
    (∀ mo off, finishSide bigStW.aVtx bigStW.aIdx = some (mo, off) →
        noWeldB bigStW.aVtx bigStW.aIdx = true → smallSideB bigStW.aVtx bigStW.aIdx = true →
        ∀ c ∈ chunk3 mo.idxs, chunkCCWB mo.verts c = true)
    ∧ (∀ mo off, finishSide bigStW.bVtx bigStW.bIdx = some (mo, off) →
        noWeldB bigStW.bVtx bigStW.bIdx = true → smallSideB bigStW.bVtx bigStW.bIdx = true →
        ∀ c ∈ chunk3 mo.idxs, chunkCCWB mo.verts c = true) :=
  spec_C2 bigTri (0, 1) (4, 0) bigStW (by decide) (by with_unfolding_all rfl)
    (by
      intro c hc
      have hc' : c = [0, 1, 2] := by
        rw [show chunk3 bigTri.idxs = [[0, 1, 2]] from rfl] at hc
        simpa using hc
      subst hc'
      with_unfolding_all rfl)

/-- C4: on any mesh whose flat index count is a multiple of 3,
`shatter_mesh` terminates — the worklist loop, run with fuel bounded by the
measure `3^(4 - min depth 4)` summed over the queue, finishes within that
bound and returns `some` — and every returned fragment either has area at
most `max_shard_area` or was emitted with its depth strictly above the fixed
ceiling of 3 (the oversized fragment is emitted as-is, not an error). -/
theorem spec_C4 (m : MeshQ) (maxA : ℚ) (h3 : m.idxs.length % 3 = 0) :
    ∃ frags, shatterMeshAux m maxA = some frags
      ∧ shatterMesh m maxA = some (frags.map (fun x => (x.1, x.2.1)))
      ∧ ∀ f ∈ frags, meshArea f.1 ≤ maxA ∨ 3 < f.2.2 := by
  obtain ⟨out, hout, hprop⟩ := shatterFuel_term maxA (muQueue [(m, (0, 0), 0)] + 1)
    [(m, (0, 0), 0)] []
    (by
      intro x hx
      rcases List.mem_singleton.mp hx with rfl
      exact h3)
    (Nat.lt_succ_self _)
  refine ⟨out, hout, ?_, ?_⟩
  · unfold shatterMesh shatterMeshAux
    rw [hout]
    rfl
  · intro f hf
    rcases hprop f hf with hin | hsd
    · simp at hin
    · rcases (shardDone_iff maxA f.1 f.2.2).mp hsd with h | h
      · exact Or.inr h
      · exact Or.inl h

/-- Witness for C4 on the unit right triangle with `max_shard_area = 1`
(the triangle's area is 1/2, so it is emitted immediately at depth 0). -/
theorem spec_C4_witness :
    ∃ frags, shatterMeshAux triM 1 = some frags
      ∧ shatterMesh triM 1 = some (frags.map (fun x => (x.1, x.2.1)))
      ∧ ∀ f ∈ frags, meshArea f.1 ≤ 1 ∨ 3 < f.2.2 :=
  spec_C4 triM 1 rfl
